import Mathlib

/-!
Verification of the Smart RAG hierarchical chunker (`src/transform.py`).

Text is modelled as `List Char` (Python `str` is a sequence of code points, and
`len`, slicing and concatenation below match the Python operations character by
character).  Every definition mirrors the Python source of `transform.py`; the
line numbers in the doc comments refer to that file.
-/

set_option maxRecDepth 10000

/-- The ASCII whitespace characters recognised by Python's `str.strip()` and by
the regex class `\s` (Python additionally strips some non-ASCII Unicode
whitespace, which does not occur in the inputs considered here). -/
def isWs (c : Char) : Bool :=
  c = ' ' || c = '\t' || c = '\n' || c = '\r' || c = '\x0b' || c = '\x0c'

/-- Python `s.strip()`: remove whitespace from both ends. -/
def strip (s : List Char) : List Char :=
  ((s.dropWhile isWs).reverse.dropWhile isWs).reverse

/-- Python `s[-k:]` for `0 < k ≤ len(s)`: the last `k` characters. -/
def lastChars (k : Nat) (s : List Char) : List Char :=
  s.drop (s.length - k)

/-- Worker for `splitParas`; scans for the two-newline separator, Python
`content.split('\n\n')` (leftmost, non-overlapping, keeps empty parts). -/
def splitParasGo (cur : List Char) : List Char → List (List Char)
  | [] => [cur.reverse]
  | [c] => [(c :: cur).reverse]
  | c :: d :: rest =>
    if c = '\n' && d = '\n' then cur.reverse :: splitParasGo [] rest
    else splitParasGo (c :: cur) (d :: rest)

/-- Python `content.split('\n\n')` (transform.py line 303). -/
def splitParas (s : List Char) : List (List Char) :=
  splitParasGo [] s

/-- Sentence-terminating punctuation of the regex `(?<=[.!?])\s+`. -/
def isSentEnd (c : Char) : Bool :=
  c = '.' || c = '!' || c = '?'

/-- Whether the (reversed) fragment built so far ends in sentence-ending
punctuation, i.e. whether a following whitespace run is a split point of the
regex lookbehind `(?<=[.!?])`. -/
def endsSentEnd : List Char → Bool
  | p :: _ => isSentEnd p
  | [] => false

/-- Worker for `splitSentences`: a one-pass scanner.  `cur` is the current
fragment, reversed.  In skipping mode (`skipping = true`) we are inside the
whitespace run of a split point and discard whitespace; a split point is a
whitespace character directly preceded by sentence-ending punctuation.  This
is exactly the behaviour of `re.split(r'(?<=[.!?])\s+', text)`: the
punctuation stays with the left fragment, the maximal whitespace run is
consumed. -/
def splitSentGo (skipping : Bool) (cur : List Char) : List Char → List (List Char)
  | [] => [cur.reverse]
  | d :: rest =>
    if skipping then
      if isWs d then splitSentGo true cur rest
      else splitSentGo false [d] rest
    else if isWs d && endsSentEnd cur then
      cur.reverse :: splitSentGo true [] rest
    else
      splitSentGo false (d :: cur) rest

/-- Python `re.split(r'(?<=[.!?])\s+', text)` (transform.py lines 320 and 328).
The result is never the empty list. -/
def splitSentences (s : List Char) : List (List Char) :=
  splitSentGo false [] s

/-- One iteration of the inner sentence-packing loop of
`_smart_split_content` (transform.py lines 331-346).  The state is the pair
`(chunks, temp_chunk)`. -/
def sentenceStep (target overlap : Nat) (st : List (List Char) × List Char)
    (sentence : List Char) : List (List Char) × List Char :=
  let chunks := st.1
  let temp := st.2
  if (temp ++ ' ' :: sentence).length ≤ target then
    (chunks, if temp.isEmpty then sentence else temp ++ ' ' :: sentence)
  else if temp.isEmpty then
    -- line 345: even a single sentence is too long, emit it verbatim
    (chunks ++ [strip sentence], [])
  else
    -- lines 336-342: emit `temp_chunk`, reseed it with its own overlap tail
    let newTemp :=
      if 0 < overlap then
        (if overlap < temp.length then lastChars overlap temp else temp) ++ ' ' :: sentence
      else sentence
    (chunks ++ [strip temp], newTemp)

/-- One iteration of the outer paragraph loop of `_smart_split_content`
(transform.py lines 306-350).  The state is the pair
`(chunks, current_chunk)`. -/
def paraStep (target overlap : Nat) (st : List (List Char) × List Char)
    (para : List Char) : List (List Char) × List Char :=
  let chunks := st.1
  let cur := st.2
  let test := if cur.isEmpty then para else cur ++ '\n' :: '\n' :: para
  if test.length ≤ target then
    (chunks, test)
  else
    -- lines 314-323: emit the accumulator and compute the overlap reseed
    let chunks2 := if cur.isEmpty then chunks else chunks ++ [strip cur]
    let cur2 : List Char :=
      if cur.isEmpty then cur
      else if 0 < overlap && overlap < cur.length then
        let overlapText := lastChars overlap cur
        let sentences := splitSentences overlapText
        sentences.getLastD overlapText
      else []
    if target < para.length then
      -- lines 326-348: the paragraph itself is too long, pack its sentences
      (splitSentences para).foldl (sentenceStep target overlap) (chunks2, cur2)
    else
      -- line 350: the paragraph fits; note this DISCARDS the reseeded overlap
      (chunks2, para)

/-- Python `_smart_split_content(content, target_size, overlap)`
(transform.py lines 298-356). -/
def smart_split_content (content : List Char) (target overlap : Nat) :
    List (List Char) :=
  let st := (splitParas content).foldl (paraStep target overlap) ([], [])
  let chunks := if st.2.isEmpty then st.1 else st.1 ++ [strip st.2]
  chunks.filter (fun c => !(strip c).isEmpty)

/-- Worker for `natStr`: decimal digits of `n` prepended to `acc`, with
structural fuel (any fuel with `n < 10 ^ fuel` yields the digits of `n`). -/
def natStrGo (fuel : Nat) (n : Nat) (acc : List Char) : List Char :=
  match fuel with
  | 0 => acc
  | f + 1 =>
    if n < 10 then Nat.digitChar n :: acc
    else natStrGo f (n / 10) (Nat.digitChar (n % 10) :: acc)

/-- Python `str(n)` for a natural number: the decimal numeral, as used by the
f-strings building chunk ids (transform.py lines 230, 245, 268, 284). -/
def natStr (n : Nat) : List Char :=
  natStrGo (n + 1) n []

/-- UTF-8 encoding of a string, Python `content.encode()`. -/
def utf8Bytes : List Char → List Nat
  | [] => []
  | c :: rest =>
    let n := c.toNat
    (if n < 0x80 then [n]
     else if n < 0x800 then [0xC0 + n / 64, 0x80 + n % 64]
     else if n < 0x10000 then [0xE0 + n / 4096, 0x80 + n / 64 % 64, 0x80 + n % 64]
     else [0xF0 + n / 262144, 0x80 + n / 4096 % 64, 0x80 + n / 64 % 64, 0x80 + n % 64])
      ++ utf8Bytes rest

/-- Addition modulo 2^32. -/
def add32 (a b : Nat) : Nat := (a + b) % 4294967296

/-- Bitwise complement on 32-bit values (inputs are kept below 2^32). -/
def not32 (x : Nat) : Nat := 4294967295 - x % 4294967296

/-- 32-bit left rotation by `s` (for `0 < s < 32`): the shifted-out high bits
and the shifted low bits occupy disjoint bit ranges, so addition is bitwise or. -/
def rotl32 (x s : Nat) : Nat :=
  (x % 4294967296 * 2 ^ s + x % 4294967296 / 2 ^ (32 - s)) % 4294967296

/-- The 64 MD5 sine-derived constants (RFC 1321). -/
def md5K : List Nat :=
  [0xd76aa478, 0xe8c7b756, 0x242070db, 0xc1bdceee,
   0xf57c0faf, 0x4787c62a, 0xa8304613, 0xfd469501,
   0x698098d8, 0x8b44f7af, 0xffff5bb1, 0x895cd7be,
   0x6b901122, 0xfd987193, 0xa679438e, 0x49b40821,
   0xf61e2562, 0xc040b340, 0x265e5a51, 0xe9b6c7aa,
   0xd62f105d, 0x02441453, 0xd8a1e681, 0xe7d3fbc8,
   0x21e1cde6, 0xc33707d6, 0xf4d50d87, 0x455a14ed,
   0xa9e3e905, 0xfcefa3f8, 0x676f02d9, 0x8d2a4c8a,
   0xfffa3942, 0x8771f681, 0x6d9d6122, 0xfde5380c,
   0xa4beea44, 0x4bdecfa9, 0xf6bb4b60, 0xbebfbc70,
   0x289b7ec6, 0xeaa127fa, 0xd4ef3085, 0x04881d05,
   0xd9d4d039, 0xe6db99e5, 0x1fa27cf8, 0xc4ac5665,
   0xf4292244, 0x432aff97, 0xab9423a7, 0xfc93a039,
   0x655b59c3, 0x8f0ccc92, 0xffeff47d, 0x85845dd1,
   0x6fa87e4f, 0xfe2ce6e0, 0xa3014314, 0x4e0811a1,
   0xf7537e82, 0xbd3af235, 0x2ad7d2bb, 0xeb86d391]

/-- The MD5 per-round rotation amounts. -/
def md5S : List Nat :=
  [7, 12, 17, 22, 7, 12, 17, 22, 7, 12, 17, 22, 7, 12, 17, 22,
   5, 9, 14, 20, 5, 9, 14, 20, 5, 9, 14, 20, 5, 9, 14, 20,
   4, 11, 16, 23, 4, 11, 16, 23, 4, 11, 16, 23, 4, 11, 16, 23,
   6, 10, 15, 21, 6, 10, 15, 21, 6, 10, 15, 21, 6, 10, 15, 21]

/-- MD5 auxiliary function F. -/
def md5F (b c d : Nat) : Nat := Nat.lor (Nat.land b c) (Nat.land (not32 b) d)

/-- MD5 auxiliary function G. -/
def md5G (b c d : Nat) : Nat := Nat.lor (Nat.land b d) (Nat.land c (not32 d))

/-- MD5 auxiliary function H. -/
def md5H (b c d : Nat) : Nat := Nat.xor b (Nat.xor c d)

/-- MD5 auxiliary function I. -/
def md5I (b c d : Nat) : Nat := Nat.xor c (Nat.lor b (not32 d))

/-- A little-endian 32-bit word from four bytes. -/
def leWord (b0 b1 b2 b3 : Nat) : Nat := b0 + 256 * b1 + 65536 * b2 + 16777216 * b3

/-- Group a 64-byte block into sixteen little-endian words. -/
def toWords : List Nat → List Nat
  | b0 :: b1 :: b2 :: b3 :: rest => leWord b0 b1 b2 b3 :: toWords rest
  | _ => []

/-- `k` little-endian bytes of `w`. -/
def leBytes (w : Nat) : Nat → List Nat
  | 0 => []
  | k + 1 => w % 256 :: leBytes (w / 256) k

/-- MD5 padding: a 0x80 byte, zeros to 56 mod 64, then the bit length as a
little-endian 64-bit quantity. -/
def md5Pad (msg : List Nat) : List Nat :=
  let len := msg.length
  let k := (56 + 64 - (len + 1) % 64) % 64
  msg ++ [0x80] ++ List.replicate k 0 ++ leBytes (len * 8) 8

/-- One MD5 round (step `i` of 64) on state `(a, b, c, d)` with message words
`m`. -/
def md5Round (m : List Nat) (st : Nat × Nat × Nat × Nat) (i : Nat) :
    Nat × Nat × Nat × Nat :=
  let a := st.1
  let b := st.2.1
  let c := st.2.2.1
  let d := st.2.2.2
  let f := if i < 16 then md5F b c d
           else if i < 32 then md5G b c d
           else if i < 48 then md5H b c d
           else md5I b c d
  let g := if i < 16 then i
           else if i < 32 then (5 * i + 1) % 16
           else if i < 48 then (3 * i + 5) % 16
           else 7 * i % 16
  let tmp := add32 (add32 (add32 a f) (md5K.getD i 0)) (m.getD g 0)
  (d, add32 b (rotl32 tmp (md5S.getD i 0)), b, c)

/-- Process one 64-byte block. -/
def md5Block (st : Nat × Nat × Nat × Nat) (blockBytes : List Nat) :
    Nat × Nat × Nat × Nat :=
  let m := toWords blockBytes
  let r := (List.range 64).foldl (md5Round m) st
  (add32 st.1 r.1, add32 st.2.1 r.2.1, add32 st.2.2.1 r.2.2.1, add32 st.2.2.2 r.2.2.2)

/-- Worker for `chunk64` with structural fuel (one unit per block). -/
def chunk64Go (fuel : Nat) (l : List Nat) : List (List Nat) :=
  match fuel with
  | 0 => []
  | f + 1 => if l.isEmpty then [] else l.take 64 :: chunk64Go f (l.drop 64)

/-- Split a byte list into 64-byte blocks. -/
def chunk64 (l : List Nat) : List (List Nat) :=
  chunk64Go l.length l

/-- Lower-case hex digit. -/
def hexChar (n : Nat) : Char := if n < 10 then Char.ofNat (48 + n) else Char.ofNat (87 + n)

/-- Two lower-case hex digits of a byte. -/
def byteHex (b : Nat) : List Char := [hexChar (b / 16), hexChar (b % 16)]

/-- The MD5 hex digest of a byte string, Python `hashlib.md5(bs).hexdigest()`. -/
def md5hex (msg : List Nat) : List Char :=
  let st := (chunk64 (md5Pad msg)).foldl md5Block
    (0x67452301, 0xefcdab89, 0x98badcfe, 0x10325476)
  ((leBytes st.1 4 ++ leBytes st.2.1 4 ++ leBytes st.2.2.1 4 ++ leBytes st.2.2.2 4).map
    byteHex).flatten

/-- Python `hashlib.md5(content.encode()).hexdigest()[:8]` (transform.py
lines 237, 252, 276, 292): the chunk content fingerprint. -/
def md5hex8 (s : List Char) : List Char := (md5hex (utf8Bytes s)).take 8

/-- A chunk record, mirroring the Python dicts built in
`_create_parent_chunks` / `_create_child_chunks` (transform.py lines 229-238,
244-253, 267-277, 283-293).  Keys a dict does not (yet) carry are modelled by
defaults: `parent_id` is `none` on parents, `child_chunk_ids` / `child_count`
are filled in by the orchestrator (lines 204-205) and `global_id` by the
numbering pass (line 211). -/
structure Chunk where
  chunk_id : List Char
  level : List Char
  section_name : List Char
  parent_id : Option (List Char) := none
  chunk_index : Nat
  content : List Char
  char_count : Nat
  estimated_tokens : Nat
  content_hash : List Char
  child_chunk_ids : List (List Char) := []
  child_count : Nat := 0
  global_id : Nat := 0
deriving Repr, DecidableEq

/-- The chunking configuration built in `SmartRAGChunker.__init__`
(transform.py lines 24-38).  `available_context = int(window * 0.70)`; the
rational `window * 70 / 100` below agrees with the Python float computation at
the shipped default `window = 4096` (4096 is a power of two, so the float
product is exact up to the stored double of 0.70). -/
structure Config where
  parent_chunk_size : Nat
  child_chunk_size : Nat
  overlap_size : Nat
  min_chunk_size : Nat
  available_context : Nat
deriving Repr, DecidableEq

/-- The configuration `SmartRAGChunker.__init__` installs: the three sizes are
hard-coded constants (transform.py lines 30-32). -/
def mkConfig (model_context_window : Nat) : Config :=
  { parent_chunk_size := 1200
    child_chunk_size := 400
    overlap_size := 50
    min_chunk_size := 100
    available_context := model_context_window * 70 / 100 }

/-- Python `_create_parent_chunks(section_name, content)` (transform.py
lines 221-256). -/
def create_parent_chunks (cfg : Config) (section_name content : List Char) :
    List Chunk :=
  if content.length ≤ cfg.parent_chunk_size then
    [{ chunk_id := section_name ++ '_' :: 'P' :: natStr 1
       level := "parent".data
       section_name := section_name
       chunk_index := 1
       content := content
       char_count := content.length
       estimated_tokens := content.length / 4
       content_hash := md5hex8 content }]
  else
    (smart_split_content content cfg.parent_chunk_size cfg.overlap_size).enum.map fun p =>
      { chunk_id := section_name ++ '_' :: 'P' :: natStr (p.1 + 1)
        level := "parent".data
        section_name := section_name
        chunk_index := p.1 + 1
        content := p.2
        char_count := p.2.length
        estimated_tokens := p.2.length / 4
        content_hash := md5hex8 p.2 }

/-- Python `_create_child_chunks(section_name, parent_chunk, parent_idx)`
(transform.py lines 258-296).  Note line 292 of the source: in the multi-chunk
branch the fingerprint is computed from `content` — the PARENT's content —
rather than from `chunk_content`; this is reproduced faithfully here. -/
def create_child_chunks (cfg : Config) (section_name : List Char)
    (parent_chunk : Chunk) (parent_idx : Nat) : List Chunk :=
  let content := parent_chunk.content
  if content.length ≤ cfg.child_chunk_size then
    [{ chunk_id := section_name ++ '_' :: 'P' :: natStr (parent_idx + 1) ++
         '_' :: 'C' :: natStr 1
       level := "child".data
       section_name := section_name
       parent_id := some parent_chunk.chunk_id
       chunk_index := 1
       content := content
       char_count := content.length
       estimated_tokens := content.length / 4
       content_hash := md5hex8 content }]
  else
    (smart_split_content content cfg.child_chunk_size cfg.overlap_size).enum.map fun p =>
      { chunk_id := section_name ++ '_' :: 'P' :: natStr (parent_idx + 1) ++
          '_' :: 'C' :: natStr (p.1 + 1)
        level := "child".data
        section_name := section_name
        parent_id := some parent_chunk.chunk_id
        chunk_index := p.1 + 1
        content := p.2
        char_count := p.2.length
        estimated_tokens := p.2.length / 4
        content_hash := md5hex8 content }

/-- The per-section record `section_data` of `create_hierarchical_chunks`
(transform.py lines 191-196). -/
structure SectionData where
  section_name : List Char
  original_length : Nat
  parent_chunks : List Chunk
  child_chunks : List Chunk
deriving Repr, DecidableEq

/-- One iteration of the per-document loop of `create_hierarchical_chunks`
(transform.py lines 187-207): build parents, build each parent's children, and
store the child id list and count on the parent. -/
def processSection (cfg : Config) (section_name content : List Char) :
    SectionData :=
  let parents := create_parent_chunks cfg section_name content
  let linked := parents.enum.map fun p =>
    let children := create_child_chunks cfg section_name p.2 p.1
    ({ p.2 with
        child_chunk_ids := children.map fun c => c.chunk_id
        child_count := children.length }, children)
  { section_name := section_name
    original_length := content.length
    parent_chunks := linked.map fun q => q.1
    child_chunks := (linked.map fun q => q.2).flatten }

/-- The global-sequence assignment loop of transform.py lines 210-213: each
chunk in order receives the next counter value. -/
def assignIds (g : Nat) : List Chunk → List Chunk
  | [] => []
  | c :: cs => { c with global_id := g } :: assignIds (g + 1) cs

/-- The chunks a single document contributes to `all_chunks`, in order:
`parent_chunks + section_data['child_chunks']` (transform.py line 210). -/
def sectionChunks (cfg : Config) (doc : List Char × List Char) : List Chunk :=
  let sd := processSection cfg doc.1 doc.2
  sd.parent_chunks ++ sd.child_chunks

/-- Python `create_hierarchical_chunks` (transform.py lines 173-219), i.e. the
value of `self.all_chunks` it returns.  Documents are the ordered
`self.sections` mapping (a dict, so the section names are distinct).  The
method finally calls `_calculate_optimization_metrics` (line 218), which is a
print-only computation modelled separately below. -/
def create_hierarchical_chunks (cfg : Config)
    (sections : List (List Char × List Char)) : List Chunk :=
  (sections.foldl
    (fun st doc =>
      let cs := assignIds st.1 (sectionChunks cfg doc)
      (st.1 + cs.length, st.2 ++ cs))
    (1, ([] : List Chunk))).2

/-- Floor division of rationals, Python `a // b` on floats (for `b ≠ 0`). -/
def ratFloorDiv (a b : ℚ) : ℚ := ((a / b).floor : ℚ)

/-- The computation of `_calculate_optimization_metrics` (transform.py
lines 358-375), with `none` modelling an uncaught `ZeroDivisionError`:
line 368 guards the empty-child average to `0`, but line 369 then computes
`available_context // (avg_child_tokens * 4)` unconditionally, which raises
whenever that average is zero; line 372 likewise divides by the number of
parent chunks.  On success the value is
`(avg_child_tokens, max_chunks_per_query, avg_parent_tokens)`.  Exact rational
arithmetic stands in for Python floats; the zero tests involved are exact. -/
def calculate_optimization_metrics (cfg : Config) (all_chunks : List Chunk) :
    Option (ℚ × ℚ × ℚ) :=
  let child_tokens := (all_chunks.filter fun c => c.level = "child".data).map
    fun c => c.estimated_tokens
  let parent_tokens := (all_chunks.filter fun c => c.level = "parent".data).map
    fun c => c.estimated_tokens
  let avg_child : ℚ :=
    if child_tokens.isEmpty then 0 else (child_tokens.sum : ℚ) / child_tokens.length
  if avg_child * 4 = 0 then none
  else
    let max_chunks := ratFloorDiv (cfg.available_context : ℚ) (avg_child * 4)
    if parent_tokens.isEmpty then none
    else some (avg_child, max_chunks, (parent_tokens.sum : ℚ) / parent_tokens.length)

/-- The `chunk_size` recommendation of `_get_optimization_recommendations`
(transform.py lines 533-547). -/
inductive SizeRec where
  | smaller
  | larger
  | optimal (chunks_per_query : ℚ)
deriving Repr, DecidableEq

/-- The computation of `_get_optimization_recommendations` (transform.py
lines 533-547), with `none` modelling the `ZeroDivisionError` raised at
line 541 when the average child token count is zero (in particular when there
are no child chunks). -/
def get_optimization_recommendations (cfg : Config) (all_chunks : List Chunk) :
    Option SizeRec :=
  let child_tokens := (all_chunks.filter fun c => c.level = "child".data).map
    fun c => c.estimated_tokens
  let avg_child : ℚ :=
    if child_tokens.isEmpty then 0 else (child_tokens.sum : ℚ) / child_tokens.length
  if avg_child * 4 = 0 then none
  else
    let optimal := ratFloorDiv (cfg.available_context : ℚ) (avg_child * 4)
    if optimal < 3 then some SizeRec.smaller
    else if 8 < optimal then some SizeRec.larger
    else some (SizeRec.optimal optimal)

/-- The configuration-validity predicate stated by the specification and by
claim C2: all three sizes positive and the overlap strictly below the child
size (`0 < overlapSize < childSize`, `0 < parentSize`). -/
def validConfig (cfg : Config) : Prop :=
  0 < cfg.parent_chunk_size ∧ 0 < cfg.child_chunk_size ∧ 0 < cfg.overlap_size ∧
    cfg.overlap_size < cfg.child_chunk_size

/-- An invalid configuration in the sense of claim C2:
`overlapSize >= childSize`. -/
def invalidCfg : Config :=
  { parent_chunk_size := 1200
    child_chunk_size := 400
    overlap_size := 400
    min_chunk_size := 100
    available_context := 2867 }

/-- An empty-content parent chunk, as `_create_parent_chunks` produces for an
empty document. -/
def emptyParent : Chunk :=
  { chunk_id := "s_P1".data
    level := "parent".data
    section_name := "s".data
    chunk_index := 1
    content := []
    char_count := 0
    estimated_tokens := 0
    content_hash := md5hex8 [] }

/-- C1: the splitter's paragraph loop computes the overlap reseed after
emitting a finished segment (transform.py lines 317-321), but when the next
paragraph fits the budget on its own, line 350 (`current_chunk = para`)
overwrites the reseeded accumulator, so the next emitted segment does NOT
begin with the overlap tail of the previous one.  Concretely: two 300-char
paragraphs under a 400-char budget with overlap 50 split into exactly the two
paragraphs; the overlap tail of the first segment is the raw 50-char tail
(no sentence boundary exists in it), and the second segment does not begin
with it. -/
theorem c1_overlap_reseed_discarded :
    smart_split_content
        (List.replicate 300 'A' ++ '\n' :: '\n' :: List.replicate 300 'B') 400 50
      = [List.replicate 300 'A', List.replicate 300 'B'] ∧
    (splitSentences (lastChars 50 (List.replicate 300 'A'))).getLastD []
      = List.replicate 50 'A' ∧
    (List.replicate 300 'B').take 50 ≠ List.replicate 50 'A' := by
  decide

/-- C2 counterexample: the assembler performs no configuration validation.
With an invalid configuration (`overlap_size = child_chunk_size = 400`) and a
one-document input, `create_hierarchical_chunks` does not fail at the start;
it produces chunks. -/
theorem c2_counterexample_no_rejection :
    ¬ validConfig invalidCfg ∧
    create_hierarchical_chunks invalidCfg [("doc".data, "hello".data)] ≠ [] := by
  constructor
  · intro h
    have := h.2.2.2
    simp [invalidCfg] at this
  · decide

/-- C2 amended: `create_hierarchical_chunks` never checks the configuration;
the shipped configuration, hard-coded by `__init__` for every context-window
argument, always satisfies the validity invariant, and an invalid
configuration — were one installed — would still be processed, producing
chunks rather than failing. -/
theorem c2_no_validation_and_shipped_config_valid :
    (∀ w, validConfig (mkConfig w)) ∧
    (create_hierarchical_chunks invalidCfg [("doc".data, "hello".data)]).length = 2 := by
  constructor
  · intro w
    unfold validConfig mkConfig
    norm_num
  · decide

/-- C3: `_calculate_optimization_metrics` guards the empty-child average to
zero (line 368) but then unconditionally computes
`available_context // (avg_child_tokens * 4)` (line 369), and
`_get_optimization_recommendations` does the same at line 541; over a chunk
list with no children both raise `ZeroDivisionError` (modelled as `none`)
instead of skipping the ratio. -/
theorem c3_metrics_division_fails_without_children :
    calculate_optimization_metrics (mkConfig 4096) [] = none ∧
    get_optimization_recommendations (mkConfig 4096) [] = none := by
  constructor <;>
    norm_num [calculate_optimization_metrics, get_optimization_recommendations]

/-- C4: in the multi-chunk child branch (transform.py line 292) the stored
fingerprint is computed from the parent's content, not the child's own.  In a
run over a single 402-char document (one parent, two 200-char children), both
children carry `content_hash = md5(parent content)[:8] = "7b57bf3e"`, while
the fingerprints of their own contents are `"16bf06b3"` and `"fc8cbf45"`. -/
theorem c4_child_hash_is_parent_hash :
    ((create_hierarchical_chunks (mkConfig 4096)
        [("docx".data, List.replicate 200 'A' ++ '\n' :: '\n' :: List.replicate 200 'B')]).map
      fun c => (c.level, c.content_hash, md5hex8 c.content))
      = [("parent".data, "7b57bf3e".data, "7b57bf3e".data),
         ("child".data, "7b57bf3e".data, "16bf06b3".data),
         ("child".data, "7b57bf3e".data, "fc8cbf45".data)] ∧
    "7b57bf3e".data ≠ "16bf06b3".data ∧ "7b57bf3e".data ≠ "fc8cbf45".data := by
  decide

/-- C5 counterexample: on empty content `_create_parent_chunks` takes the
single-chunk branch (`0 <= parent_chunk_size`) and returns one chunk whose
content is empty — not the empty sequence the claim states. -/
theorem c5_counterexample_empty_content_chunk :
    create_parent_chunks (mkConfig 4096) "s".data [] ≠ [] ∧
    ((create_parent_chunks (mkConfig 4096) "s".data []).map fun c => c.content)
      = [[]] := by
  decide

/-- C5 amended: neither builder fails on any input (both are total); for empty
content each returns exactly one chunk whose content is empty, via the
single-chunk branch. -/
theorem c5_empty_input_yields_one_empty_chunk (cfg : Config) (name : List Char)
    (p : Chunk) (i : Nat) (hp : p.content = []) :
    ((create_parent_chunks cfg name []).map fun c => c.content) = [[]] ∧
    ((create_child_chunks cfg name p i).map fun c => c.content) = [[]] := by
  unfold create_parent_chunks create_child_chunks
  simp [hp]

/-- Witness for the amended C5 theorem at a concrete configuration, section
name and empty parent. -/
theorem c5_empty_input_yields_one_empty_chunk_witness :
    ((create_parent_chunks (mkConfig 4096) "s".data []).map fun c => c.content) = [[]] ∧
    ((create_child_chunks (mkConfig 4096) "s".data emptyParent 0).map fun c => c.content)
      = [[]] :=
  c5_empty_input_yields_one_empty_chunk (mkConfig 4096) "s".data emptyParent 0 rfl

/-! ### Decimal numerals: injectivity of `natStr` and digit-only contents -/

/-- Numeric value of a decimal digit character. -/
def digitVal (c : Char) : Nat := c.toNat - 48

/-- Parse a digit string back to a number (most significant digit first). -/
def parseDigits (l : List Char) : Nat := l.foldl (fun a c => 10 * a + digitVal c) 0

theorem natStrGo_shift (f : Nat) : ∀ (n : Nat) (acc : List Char),
    natStrGo f n acc = natStrGo f n [] ++ acc := by
  induction f with
  | zero => intro n acc; simp [natStrGo]
  | succ f ih =>
    intro n acc
    by_cases h : n < 10
    · simp [natStrGo, h]
    · simp only [natStrGo, if_neg h]
      rw [ih (n / 10) (Nat.digitChar (n % 10) :: acc), ih (n / 10) [Nat.digitChar (n % 10)]]
      simp

theorem digitVal_digitChar (n : Nat) (h : n < 10) : digitVal (Nat.digitChar n) = n := by
  interval_cases n <;> decide

theorem isDigit_digitChar (n : Nat) (h : n < 10) : (Nat.digitChar n).isDigit = true := by
  interval_cases n <;> decide

theorem parseDigits_append_digit (xs : List Char) (c : Char) :
    parseDigits (xs ++ [c]) = 10 * parseDigits xs + digitVal c := by
  simp [parseDigits, List.foldl_append]

theorem parseDigits_natStrGo (f : Nat) : ∀ (n : Nat), n < 10 ^ f →
    parseDigits (natStrGo f n []) = n := by
  induction f with
  | zero => intro n hn; interval_cases n; simp [natStrGo, parseDigits]
  | succ f ih =>
    intro n hn
    by_cases h : n < 10
    · simp only [natStrGo, if_pos h]
      have : parseDigits [Nat.digitChar n] = digitVal (Nat.digitChar n) := by
        simp [parseDigits]
      rw [this, digitVal_digitChar n h]
    · simp only [natStrGo, if_neg h]
      rw [natStrGo_shift f (n / 10) [Nat.digitChar (n % 10)]]
      rw [parseDigits_append_digit]
      rw [ih (n / 10) (by rw [Nat.div_lt_iff_lt_mul (by omega)]; rw [pow_succ] at hn; omega)]
      rw [digitVal_digitChar (n % 10) (Nat.mod_lt n (by omega))]
      omega

theorem parseDigits_natStr (n : Nat) : parseDigits (natStr n) = n := by
  have h1 : n < 10 ^ n := Nat.lt_pow_self (by omega) n
  have h2 : (10 : Nat) ^ n ≤ 10 ^ (n + 1) := Nat.pow_le_pow_right (by omega) (by omega)
  exact parseDigits_natStrGo (n + 1) n (by omega)

theorem natStr_injective {m n : Nat} (h : natStr m = natStr n) : m = n := by
  have := parseDigits_natStr m
  rw [h, parseDigits_natStr n] at this
  omega

theorem natStrGo_digits (f : Nat) : ∀ (n : Nat) (acc : List Char),
    (∀ c ∈ acc, c.isDigit = true) → ∀ c ∈ natStrGo f n acc, c.isDigit = true := by
  induction f with
  | zero => intro n acc hacc; simpa [natStrGo] using hacc
  | succ f ih =>
    intro n acc hacc c hc
    by_cases h : n < 10
    · simp only [natStrGo, if_pos h] at hc
      rcases List.mem_cons.mp hc with h1 | h1
      · rw [h1]; exact isDigit_digitChar n h
      · exact hacc c h1
    · simp only [natStrGo, if_neg h] at hc
      refine ih (n / 10) (Nat.digitChar (n % 10) :: acc) ?_ c hc
      intro d hd
      rcases List.mem_cons.mp hd with h1 | h1
      · rw [h1]; exact isDigit_digitChar (n % 10) (Nat.mod_lt n (by omega))
      · exact hacc d h1

theorem natStr_digits (n : Nat) : ∀ c ∈ natStr n, c.isDigit = true :=
  natStrGo_digits (n + 1) n [] (by intro c hc; simp at hc)

/-! ### Chunk ids: the hierarchical encoding is injective -/

/-- The id of the parent at 0-based position `k` of a section,
`f"{section_name}_P{k+1}"`. -/
def parentIdOf (name : List Char) (k : Nat) : List Char :=
  name ++ '_' :: 'P' :: natStr (k + 1)

/-- The id of the `i`-th (0-based) child of the parent at 0-based position `k`,
`f"{section_name}_P{k+1}_C{i+1}"`. -/
def childIdOf (name : List Char) (k i : Nat) : List Char :=
  name ++ '_' :: 'P' :: natStr (k + 1) ++ '_' :: 'C' :: natStr (i + 1)

theorem takeWhile_append_all {p : Char → Bool} : ∀ (A : List Char) (c : Char)
    (B : List Char), (∀ x ∈ A, p x = true) → p c = false →
    (A ++ c :: B).takeWhile p = A := by
  intro A
  induction A with
  | nil => intro c B _ hc; simp [List.takeWhile, hc]
  | cons a A ih =>
    intro c B hA hc
    have ha : p a = true := hA a (by simp)
    simp only [List.cons_append, List.takeWhile_cons, ha, if_true]
    rw [ih c B (fun x hx => hA x (by simp [hx])) hc]

/-- Two strings of the form `a ++ c ++ digits(i)` with a non-digit marker `c`
agree only when the stems and the numbers agree. -/
theorem append_marker_natStr_inj {a b : List Char} {c : Char} {i j : Nat}
    (hc : c.isDigit = false) (h : a ++ c :: natStr i = b ++ c :: natStr j) :
    a = b ∧ i = j := by
  have hrev : (natStr i).reverse ++ c :: a.reverse
      = (natStr j).reverse ++ c :: b.reverse := by
    have := congrArg List.reverse h
    simpa using this
  have hdigits : ∀ (n : Nat), ∀ x ∈ (natStr n).reverse, x.isDigit = true := by
    intro n x hx
    exact natStr_digits n x (List.mem_reverse.mp hx)
  have htw : (natStr i).reverse = (natStr j).reverse := by
    have h1 := takeWhile_append_all ((natStr i).reverse) c a.reverse (hdigits i) hc
    have h2 := takeWhile_append_all ((natStr j).reverse) c b.reverse (hdigits j) hc
    rw [← h1, ← h2, hrev]
  have hnum : natStr i = natStr j := by
    have := congrArg List.reverse htw
    simpa using this
  have hij : i = j := natStr_injective hnum
  constructor
  · have hlen : (natStr i).reverse.length = (natStr j).reverse.length := by rw [htw]
    have := List.append_inj_right hrev (by simpa using hlen)
    have h3 : a.reverse = b.reverse := by
      injection this with _ h4
    have := congrArg List.reverse h3
    simpa using this
  · exact hij

theorem parentIdOf_inj {n₁ n₂ : List Char} {k₁ k₂ : Nat}
    (h : parentIdOf n₁ k₁ = parentIdOf n₂ k₂) : n₁ = n₂ ∧ k₁ = k₂ := by
  have h' : (n₁ ++ ['_']) ++ 'P' :: natStr (k₁ + 1)
      = (n₂ ++ ['_']) ++ 'P' :: natStr (k₂ + 1) := by
    simpa [parentIdOf] using h
  have := append_marker_natStr_inj (by decide) h'
  refine ⟨?_, by omega⟩
  have h1 : n₁ ++ ['_'] = n₂ ++ ['_'] := this.1
  simpa using List.append_inj_left' h1 rfl

theorem childIdOf_inj {n₁ n₂ : List Char} {k₁ k₂ i₁ i₂ : Nat}
    (h : childIdOf n₁ k₁ i₁ = childIdOf n₂ k₂ i₂) :
    n₁ = n₂ ∧ k₁ = k₂ ∧ i₁ = i₂ := by
  have h' : (parentIdOf n₁ k₁ ++ ['_']) ++ 'C' :: natStr (i₁ + 1)
      = (parentIdOf n₂ k₂ ++ ['_']) ++ 'C' :: natStr (i₂ + 1) := by
    simpa [childIdOf, parentIdOf] using h
  have hm := append_marker_natStr_inj (by decide) h'
  have hp : parentIdOf n₁ k₁ = parentIdOf n₂ k₂ := by
    simpa using List.append_inj_left' hm.1 rfl
  have := parentIdOf_inj hp
  exact ⟨this.1, this.2, by omega⟩

/-- A child id is its parent id followed by the `_C{i+1}` suffix. -/
theorem childIdOf_eq_parentIdOf_append (name : List Char) (k i : Nat) :
    childIdOf name k i = parentIdOf name k ++ '_' :: 'C' :: natStr (i + 1) := by
  simp [childIdOf, parentIdOf]

/-! ### Structural characterisation of the builders and the assembler -/

/-- The parent-level segments of a document: the single-chunk short-circuit or
the splitter output (transform.py lines 227 and 242). -/
def parentSegs (cfg : Config) (content : List Char) : List (List Char) :=
  if content.length ≤ cfg.parent_chunk_size then [content]
  else smart_split_content content cfg.parent_chunk_size cfg.overlap_size

/-- The child-level segments of a parent's content (transform.py lines 265
and 281). -/
def childSegs (cfg : Config) (content : List Char) : List (List Char) :=
  if content.length ≤ cfg.child_chunk_size then [content]
  else smart_split_content content cfg.child_chunk_size cfg.overlap_size

/-- The parent chunk built for 0-based position `k` and segment `seg`, before
its child links are filled in. -/
def mkParent (name : List Char) (k : Nat) (seg : List Char) : Chunk :=
  { chunk_id := parentIdOf name k
    level := "parent".data
    section_name := name
    chunk_index := k + 1
    content := seg
    char_count := seg.length
    estimated_tokens := seg.length / 4
    content_hash := md5hex8 seg }

/-- The child chunk built for 0-based child position `i` under the parent at
0-based position `k` whose content is `pcontent`.  Its fingerprint is
`md5hex8 pcontent` — the parent's content — reproducing line 292 of the
source. -/
def mkChildC (name : List Char) (k i : Nat) (pcontent seg : List Char) : Chunk :=
  { chunk_id := childIdOf name k i
    level := "child".data
    section_name := name
    parent_id := some (parentIdOf name k)
    chunk_index := i + 1
    content := seg
    char_count := seg.length
    estimated_tokens := seg.length / 4
    content_hash := md5hex8 pcontent }

/-- The children of the parent at position `k` with content `pseg`. -/
def childrenOf (cfg : Config) (name : List Char) (k : Nat) (pseg : List Char) :
    List Chunk :=
  (childSegs cfg pseg).enum.map fun q => mkChildC name k q.1 pseg q.2

/-- The parent at position `k` with content `pseg`, with its child id list and
count filled in by the orchestrator. -/
def linkedParent (cfg : Config) (name : List Char) (k : Nat) (pseg : List Char) :
    Chunk :=
  { mkParent name k pseg with
      child_chunk_ids := (childSegs cfg pseg).enum.map fun q => childIdOf name k q.1
      child_count := (childSegs cfg pseg).length }

theorem create_parent_chunks_eq (cfg : Config) (name content : List Char) :
    create_parent_chunks cfg name content
      = (parentSegs cfg content).enum.map fun p => mkParent name p.1 p.2 := by
  unfold create_parent_chunks parentSegs
  by_cases h : content.length ≤ cfg.parent_chunk_size
  · simp only [if_pos h]
    rfl
  · simp only [if_neg h]
    rfl

theorem create_child_chunks_eq (cfg : Config) (name : List Char) (p : Chunk)
    (k : Nat) (hid : p.chunk_id = parentIdOf name k) :
    create_child_chunks cfg name p k = childrenOf cfg name k p.content := by
  unfold create_child_chunks childrenOf
  by_cases h : p.content.length ≤ cfg.child_chunk_size
  · simp only [if_pos h, childSegs, if_pos h]
    simp [mkChildC, childIdOf, hid, parentIdOf]
  · simp only [if_neg h, childSegs, if_neg h]
    refine List.map_congr_left ?_
    intro q _
    simp [mkChildC, childIdOf, hid, parentIdOf]

theorem enumFrom_enumFrom {α : Type _} (l : List α) : ∀ (n : Nat),
    List.enumFrom n (List.enumFrom n l) = (List.enumFrom n l).map fun p => (p.1, p) := by
  induction l with
  | nil => intro n; simp
  | cons a l ih =>
    intro n
    simp only [List.enumFrom, List.map_cons]
    rw [ih (n + 1)]

theorem enum_enum {α : Type _} (l : List α) :
    l.enum.enum = l.enum.map fun p => (p.1, p) := by
  simpa [List.enum] using enumFrom_enumFrom l 0

theorem sectionChunks_eq (cfg : Config) (name content : List Char) :
    sectionChunks cfg (name, content)
      = ((parentSegs cfg content).enum.map fun p => linkedParent cfg name p.1 p.2)
        ++ ((parentSegs cfg content).enum.map fun p =>
              childrenOf cfg name p.1 p.2).flatten := by
  unfold sectionChunks processSection
  simp only [create_parent_chunks_eq, List.enum_map, enum_enum, List.map_map]
  congr 1
  · refine List.map_congr_left ?_
    intro q _
    have hid : (mkParent name q.1 q.2).chunk_id = parentIdOf name q.1 := rfl
    simp only [Function.comp, Prod.map, id]
    rw [create_child_chunks_eq cfg name (mkParent name q.1 q.2) q.1 hid]
    show ({ mkParent name q.1 q.2 with
        child_chunk_ids :=
          (childrenOf cfg name q.1 (mkParent name q.1 q.2).content).map fun c => c.chunk_id
        child_count := (childrenOf cfg name q.1 (mkParent name q.1 q.2).content).length }
      : Chunk) = linkedParent cfg name q.1 q.2
    simp [linkedParent, childrenOf, mkParent, mkChildC, List.map_map]
  · congr 1
    refine List.map_congr_left ?_
    intro q _
    simp only [Function.comp, Prod.map, id]
    have hid : (mkParent name q.1 q.2).chunk_id = parentIdOf name q.1 := rfl
    rw [create_child_chunks_eq cfg name (mkParent name q.1 q.2) q.1 hid]
    rfl

/-- Replace a chunk's global sequence number. -/
def setGid (g : Nat) (c : Chunk) : Chunk := { c with global_id := g }

theorem assignIds_length : ∀ (g : Nat) (l : List Chunk),
    (assignIds g l).length = l.length := by
  intro g l
  induction l generalizing g with
  | nil => simp [assignIds]
  | cons c cs ih => simp [assignIds, ih]

theorem assignIds_append : ∀ (g : Nat) (a b : List Chunk),
    assignIds g (a ++ b) = assignIds g a ++ assignIds (g + a.length) b := by
  intro g a
  induction a generalizing g with
  | nil => simp [assignIds]
  | cons c cs ih =>
    intro b
    have harg : g + 1 + cs.length = g + (cs.length + 1) := by omega
    simp only [List.cons_append, assignIds, List.length_cons, List.append_eq,
      ih (g + 1) b, harg]

theorem map_gid_assignIds : ∀ (g : Nat) (l : List Chunk),
    (assignIds g l).map (fun c => c.global_id) = List.range' g l.length := by
  intro g l
  induction l generalizing g with
  | nil => simp [assignIds]
  | cons c cs ih =>
    simp only [assignIds, List.map_cons, List.length_cons, List.range'_succ, ih (g + 1)]

theorem mem_assignIds {c' : Chunk} : ∀ {g : Nat} {l : List Chunk},
    c' ∈ assignIds g l → ∃ c ∈ l, ∃ g', c' = setGid g' c := by
  intro g l
  induction l generalizing g with
  | nil => intro h; simp [assignIds] at h
  | cons c cs ih =>
    intro h
    rcases List.mem_cons.mp h with h1 | h1
    · exact ⟨c, by simp, g, h1⟩
    · rcases ih h1 with ⟨d, hd, g', hg'⟩
      exact ⟨d, by simp [hd], g', hg'⟩

theorem pairwise_assignIds {Q : Chunk → Chunk → Prop}
    (hQ : ∀ (c₁ c₂ : Chunk) (g₁ g₂ : Nat), Q c₁ c₂ → Q (setGid g₁ c₁) (setGid g₂ c₂)) :
    ∀ {l : List Chunk} (_ : List.Pairwise Q l) (g : Nat),
    List.Pairwise Q (assignIds g l) := by
  intro l
  induction l with
  | nil => intro _ g; simp [assignIds]
  | cons c cs ih =>
    intro h g
    rcases List.pairwise_cons.mp h with ⟨hhead, htail⟩
    refine List.pairwise_cons.mpr ⟨?_, ih htail (g + 1)⟩
    intro b hb
    rcases mem_assignIds hb with ⟨d, hd, g', hg'⟩
    rw [hg']
    exact hQ c d g g' (hhead d hd)

/-- The assembler produces exactly the concatenated per-document chunk lists,
numbered consecutively from 1 (transform.py lines 182-213). -/
theorem run_eq (cfg : Config) (docs : List (List Char × List Char)) :
    create_hierarchical_chunks cfg docs
      = assignIds 1 (docs.flatMap (sectionChunks cfg)) := by
  have key : ∀ (ds : List (List Char × List Char)) (g : Nat) (acc : List Chunk),
      (ds.foldl
        (fun st doc =>
          let cs := assignIds st.1 (sectionChunks cfg doc)
          (st.1 + cs.length, st.2 ++ cs))
        (g, acc)).2
      = acc ++ assignIds g (ds.flatMap (sectionChunks cfg)) := by
    intro ds
    induction ds with
    | nil => intro g acc; simp [assignIds]
    | cons d ds ih =>
      intro g acc
      simp only [List.foldl_cons, List.flatMap_cons]
      rw [ih, assignIds_append, assignIds_length, List.append_assoc]
  unfold create_hierarchical_chunks
  simpa using key docs 1 []

theorem level_of_mem_sectionChunks {cfg : Config} {doc : List Char × List Char}
    {c : Chunk} (hc : c ∈ sectionChunks cfg doc) :
    c.section_name = doc.1 ∧ (c.level = "parent".data ∨ c.level = "child".data) := by
  obtain ⟨name, content⟩ := doc
  rw [sectionChunks_eq] at hc
  rcases List.mem_append.mp hc with h | h
  · rcases List.mem_map.mp h with ⟨p, _, hp⟩
    rw [← hp]
    exact ⟨rfl, Or.inl rfl⟩
  · rcases List.mem_flatten.mp h with ⟨blk, hblk, hcblk⟩
    rcases List.mem_map.mp hblk with ⟨p, _, hp⟩
    rw [← hp] at hcblk
    rcases List.mem_map.mp hcblk with ⟨q, _, hq⟩
    rw [← hq]
    exact ⟨rfl, Or.inr rfl⟩

/-- The ordering invariant needed for claim C6: within one section, no child
chunk may precede a parent chunk. -/
def noChildBeforeParent (a b : Chunk) : Prop :=
  a.section_name = b.section_name →
    ¬(a.level = "child".data ∧ b.level = "parent".data)

theorem pairwise_block (cfg : Config) (doc : List Char × List Char) :
    List.Pairwise noChildBeforeParent (sectionChunks cfg doc) := by
  obtain ⟨name, content⟩ := doc
  rw [sectionChunks_eq]
  have hpar : ∀ a ∈ (parentSegs cfg content).enum.map
      (fun p => linkedParent cfg name p.1 p.2), a.level = "parent".data := by
    intro a ha
    rcases List.mem_map.mp ha with ⟨p, _, hp⟩
    rw [← hp]; rfl
  have hchi : ∀ b ∈ ((parentSegs cfg content).enum.map
      (fun p => childrenOf cfg name p.1 p.2)).flatten, b.level = "child".data := by
    intro b hb
    rcases List.mem_flatten.mp hb with ⟨blk, hblk, hbblk⟩
    rcases List.mem_map.mp hblk with ⟨p, _, hp⟩
    rw [← hp] at hbblk
    rcases List.mem_map.mp hbblk with ⟨q, _, hq⟩
    rw [← hq]; rfl
  refine List.pairwise_append.mpr ⟨?_, ?_, ?_⟩
  · refine List.pairwise_of_forall_mem_list ?_
    intro a ha b _
    intro _ hab
    have := hpar a ha
    rw [this] at hab
    exact absurd hab.1 (by decide)
  · refine List.pairwise_of_forall_mem_list ?_
    intro a _ b hb
    intro _ hab
    have := hchi b hb
    rw [this] at hab
    exact absurd hab.2 (by decide)
  · intro a ha b _
    intro _ hab
    have := hpar a ha
    rw [this] at hab
    exact absurd hab.1 (by decide)

theorem pairwise_run (cfg : Config) (docs : List (List Char × List Char))
    (hnd : (docs.map Prod.fst).Nodup) :
    List.Pairwise noChildBeforeParent (docs.flatMap (sectionChunks cfg)) := by
  rw [List.flatMap_def]
  refine List.pairwise_flatten.mpr ⟨?_, ?_⟩
  · intro l hl
    rcases List.mem_map.mp hl with ⟨d, _, hd⟩
    rw [← hd]
    exact pairwise_block cfg d
  · have hne : List.Pairwise (fun d₁ d₂ : List Char × List Char => d₁.1 ≠ d₂.1) docs :=
      List.pairwise_map.mp hnd
    refine List.pairwise_map.mpr ?_
    refine hne.imp ?_
    intro d₁ d₂ h12 x hx y hy
    intro hsec
    have h₁ := (level_of_mem_sectionChunks hx).1
    have h₂ := (level_of_mem_sectionChunks hy).1
    rw [h₁, h₂] at hsec
    exact absurd hsec h12

/-- C6: across the flat chunk list of any run the `global_id` values are
exactly `1, 2, 3, …` in order (strictly increasing, contiguous, starting
at 1, from a single counter never reset between documents); and — provided the
section names are distinct, as they are for a Python dict — every parent chunk
of a document receives a smaller number than every child chunk of the same
document. -/
theorem c6_global_sequence (cfg : Config) (docs : List (List Char × List Char)) :
    ((create_hierarchical_chunks cfg docs).map fun c => c.global_id)
      = List.range' 1 (create_hierarchical_chunks cfg docs).length ∧
    ((docs.map Prod.fst).Nodup →
      ∀ c₁ ∈ create_hierarchical_chunks cfg docs,
      ∀ c₂ ∈ create_hierarchical_chunks cfg docs,
      c₁.section_name = c₂.section_name → c₁.level = "parent".data →
      c₂.level = "child".data → c₁.global_id < c₂.global_id) := by
  constructor
  · rw [run_eq, map_gid_assignIds, assignIds_length]
  · intro hnd c₁ h₁ c₂ h₂ hsec hl₁ hl₂
    rw [run_eq] at h₁ h₂
    have hgid : List.Pairwise (fun a b : Chunk => a.global_id < b.global_id)
        (assignIds 1 (docs.flatMap (sectionChunks cfg))) := by
      refine List.pairwise_map.mp ?_
      rw [map_gid_assignIds]
      exact List.pairwise_lt_range' 1 _ 1
    have hq : List.Pairwise noChildBeforeParent
        (assignIds 1 (docs.flatMap (sectionChunks cfg))) := by
      refine pairwise_assignIds ?_ (pairwise_run cfg docs hnd) 1
      intro a b g₁ g₂ hab hsec'
      exact hab hsec'
    rcases List.mem_iff_get.mp h₁ with ⟨i, hi⟩
    rcases List.mem_iff_get.mp h₂ with ⟨j, hj⟩
    rcases lt_trichotomy i j with hij | hij | hij
    · have := (List.pairwise_iff_get.mp hgid) i j hij
      rw [hi, hj] at this
      exact this
    · exfalso
      rw [← hij, hi] at hj
      rw [hj] at hl₁
      rw [hl₁] at hl₂
      exact absurd hl₂ (by decide)
    · exfalso
      have := (List.pairwise_iff_get.mp hq) j i hij
      rw [hi, hj] at this
      exact this hsec.symm ⟨hl₂, hl₁⟩

/-- Witness for C6 at a concrete run: one document, two chunks, global ids
`[1, 2]`, and the parent is numbered before the child. -/
theorem c6_global_sequence_witness :
    ((create_hierarchical_chunks (mkConfig 4096) [("a".data, "hi".data)]).map
        fun c => c.global_id)
      = List.range' 1
          (create_hierarchical_chunks (mkConfig 4096) [("a".data, "hi".data)]).length ∧
    ((create_hierarchical_chunks (mkConfig 4096) [("a".data, "hi".data)]).getD 0
        emptyParent).global_id
      < ((create_hierarchical_chunks (mkConfig 4096) [("a".data, "hi".data)]).getD 1
        emptyParent).global_id := by
  refine ⟨(c6_global_sequence (mkConfig 4096) [("a".data, "hi".data)]).1, ?_⟩
  refine (c6_global_sequence (mkConfig 4096) [("a".data, "hi".data)]).2
    (by decide) _ (by decide) _ (by decide) (by decide) (by decide) (by decide)

/-- Decompose membership in a run: every chunk is, up to its global sequence
number, either a linked parent or a child built from some document's
segments. -/
theorem mem_run_cases {cfg : Config} {docs : List (List Char × List Char)}
    {c : Chunk} (hc : c ∈ create_hierarchical_chunks cfg docs) :
    ∃ doc ∈ docs, ∃ g : Nat,
      ((∃ p ∈ (parentSegs cfg doc.2).enum,
          c = setGid g (linkedParent cfg doc.1 p.1 p.2)) ∨
       (∃ p ∈ (parentSegs cfg doc.2).enum, ∃ q ∈ (childSegs cfg p.2).enum,
          c = setGid g (mkChildC doc.1 p.1 q.1 p.2 q.2))) := by
  rw [run_eq] at hc
  rcases mem_assignIds hc with ⟨d, hd, g, hg⟩
  rcases List.mem_flatMap.mp hd with ⟨doc, hdoc, hdsec⟩
  obtain ⟨name, content⟩ := doc
  rw [sectionChunks_eq] at hdsec
  refine ⟨(name, content), hdoc, g, ?_⟩
  rcases List.mem_append.mp hdsec with h | h
  · rcases List.mem_map.mp h with ⟨p, hp, hpe⟩
    exact Or.inl ⟨p, hp, by rw [hg, hpe]⟩
  · rcases List.mem_flatten.mp h with ⟨blk, hblk, hdblk⟩
    rcases List.mem_map.mp hblk with ⟨p, hp, hpe⟩
    rw [← hpe] at hdblk
    rcases List.mem_map.mp hdblk with ⟨q, hq, hqe⟩
    exact Or.inr ⟨p, hp, q, hq, by rw [hg, hqe]⟩

/-- C10: every Child chunk's id is its `parent_id` followed by `_C` and its
own 1-based `chunk_index`, so the owning parent's id is recoverable from the
child id alone. -/
theorem c10_child_id_extends_parent_id (cfg : Config)
    (docs : List (List Char × List Char)) :
    ∀ c ∈ create_hierarchical_chunks cfg docs, c.level = "child".data →
      ∃ pid, c.parent_id = some pid ∧
        c.chunk_id = pid ++ '_' :: 'C' :: natStr c.chunk_index := by
  intro c hc hlev
  rcases mem_run_cases hc with ⟨doc, _, g, hcase | hcase⟩
  · exfalso
    rcases hcase with ⟨p, _, hp⟩
    rw [hp] at hlev
    have hpc : "parent".data = "child".data := hlev
    exact absurd hpc (by decide)
  · rcases hcase with ⟨p, _, q, _, hq⟩
    refine ⟨parentIdOf doc.1 p.1, ?_, ?_⟩
    · rw [hq]; rfl
    · rw [hq]
      show childIdOf doc.1 p.1 q.1 = parentIdOf doc.1 p.1 ++ '_' :: 'C' :: natStr (q.1 + 1)
      exact childIdOf_eq_parentIdOf_append doc.1 p.1 q.1

/-- Witness for C10: in the two-chunk run over one short document, the single
child's id is its parent id plus the `_C1` suffix. -/
theorem c10_child_id_extends_parent_id_witness :
    ∃ pid,
      ((create_hierarchical_chunks (mkConfig 4096) [("a".data, "hi".data)]).getD 1
          emptyParent).parent_id = some pid ∧
      ((create_hierarchical_chunks (mkConfig 4096) [("a".data, "hi".data)]).getD 1
          emptyParent).chunk_id
        = pid ++ '_' :: 'C' ::
            natStr ((create_hierarchical_chunks (mkConfig 4096)
              [("a".data, "hi".data)]).getD 1 emptyParent).chunk_index :=
  c10_child_id_extends_parent_id (mkConfig 4096) [("a".data, "hi".data)] _
    (by decide) (by decide)

/-! ### Claim C7 machinery: counting parents and children by id -/

/-- Bool test: `p` is a Parent chunk whose id is the referenced `pid`
(the predicate of the claim's "parentId matches exactly one Parent"). -/
def isParentOf (pid : Option (List Char)) (p : Chunk) : Bool :=
  (p.level == "parent".data) && (some p.chunk_id == pid)

/-- Bool test: `c` is a Child chunk whose `parent_id` references `pid`. -/
def isChildOf (pid : List Char) (c : Chunk) : Bool :=
  (c.level == "child".data) && (c.parent_id == some pid)

theorem isParentOf_iff (pid : Option (List Char)) (p : Chunk) :
    isParentOf pid p = true ↔ p.level = "parent".data ∧ some p.chunk_id = pid := by
  simp [isParentOf]

theorem isChildOf_iff (pid : List Char) (c : Chunk) :
    isChildOf pid c = true ↔ c.level = "child".data ∧ c.parent_id = some pid := by
  simp [isChildOf]

theorem countP_assignIds (q : Chunk → Bool) (hq : ∀ (c : Chunk) (g : Nat),
    q (setGid g c) = q c) : ∀ (g : Nat) (l : List Chunk),
    (assignIds g l).countP q = l.countP q := by
  intro g l
  induction l generalizing g with
  | nil => simp [assignIds]
  | cons c cs ih =>
    have hqc : q { c with global_id := g } = q c := hq c g
    simp [assignIds, List.countP_cons, ih (g + 1), hqc]

theorem filter_map_chunkId_assignIds (q : Chunk → Bool) (hq : ∀ (c : Chunk) (g : Nat),
    q (setGid g c) = q c) : ∀ (g : Nat) (l : List Chunk),
    ((assignIds g l).filter q).map (fun c => c.chunk_id)
      = (l.filter q).map (fun c => c.chunk_id) := by
  intro g l
  induction l generalizing g with
  | nil => simp [assignIds]
  | cons c cs ih =>
    have hqc : q { c with global_id := g } = q c := hq c g
    by_cases hc : q c = true
    · simp [assignIds, List.filter_cons, hqc, hc, ih (g + 1)]
    · simp [assignIds, List.filter_cons, hqc, hc, ih (g + 1)]

theorem countP_flatMap {α β : Type _} (q : β → Bool) (f : α → List β) :
    ∀ (l : List α), (l.flatMap f).countP q = (l.map fun a => (f a).countP q).sum := by
  intro l
  induction l with
  | nil => simp
  | cons a l ih => simp [List.flatMap_cons, List.countP_append, ih]

theorem countP_enumFrom_fst_eq {α : Type _} (k₀ : Nat) : ∀ (n : Nat) (l : List α),
    (List.enumFrom n l).countP (fun p => p.1 == k₀)
      = if n ≤ k₀ ∧ k₀ < n + l.length then 1 else 0 := by
  intro n l
  induction l generalizing n with
  | nil =>
    simp only [List.enumFrom, List.countP_nil, List.length_nil, Nat.add_zero]
    rw [if_neg (by omega)]
  | cons a l ih =>
    simp only [List.enumFrom, List.countP_cons, ih (n + 1), List.length_cons]
    by_cases hn : n = k₀
    · have hbeq : ((n, a).1 == k₀) = true := by simp [hn]
      rw [hbeq, if_pos rfl, if_neg (by omega), if_pos (by omega)]
    · have hbeq : ((n, a).1 == k₀) = false := by simp [hn]
      rw [hbeq]
      simp only [Bool.false_eq_true, if_false, Nat.add_zero]
      by_cases hrange : n + 1 ≤ k₀ ∧ k₀ < n + 1 + l.length
      · rw [if_pos hrange, if_pos (by omega)]
      · rw [if_neg hrange, if_neg (by omega)]

theorem flatten_map_eq_nil {α β : Type _} (G : α → List β) (l : List α)
    (h : ∀ p ∈ l, G p = []) : (l.map G).flatten = [] := by
  refine List.flatten_eq_nil_iff.mpr ?_
  intro bl hbl
  rcases List.mem_map.mp hbl with ⟨p, hp, he⟩
  rw [← he]
  exact h p hp

/-- If exactly the entry with first component `k₀` of an `enumFrom` survives
`G`, flattening the mapped blocks yields just that entry's block. -/
theorem flatten_enumFrom_single {α β : Type _} (F G : Nat × α → List β) (k₀ : Nat) :
    ∀ (n : Nat) (l : List α) (h : k₀ - n < l.length) (hn : n ≤ k₀)
    (_ : ∀ p ∈ List.enumFrom n l, p.1 ≠ k₀ → G p = [])
    (_ : ∀ p ∈ List.enumFrom n l, p.1 = k₀ → G p = F p),
    ((List.enumFrom n l).map G).flatten = F (k₀, l.get ⟨k₀ - n, h⟩) := by
  intro n l
  induction l generalizing n with
  | nil => intro h; simp at h
  | cons a l ih =>
    intro h hn hzero hkeep
    simp only [List.enumFrom, List.map_cons, List.flatten_cons]
    have hlen : k₀ - n < l.length + 1 := by simpa using h
    by_cases hnk : n = k₀
    · have h1 : G (n, a) = F (n, a) := hkeep (n, a) (List.mem_cons_self _ _) hnk
      have h2 : ((List.enumFrom (n + 1) l).map G).flatten = [] := by
        refine flatten_map_eq_nil G _ ?_
        intro p hp
        have hge := (List.mem_enumFrom hp).1
        exact hzero p (List.mem_cons_of_mem _ hp) (by omega)
      rw [h1, h2, List.append_nil]
      have hget : (a :: l).get ⟨k₀ - n, h⟩ = a := by
        have h0 : k₀ - n = 0 := by omega
        revert h
        rw [h0]
        intro h
        rfl
      rw [hget, hnk]
    · have h1 : G (n, a) = [] := hzero (n, a) (List.mem_cons_self _ _) (by omega)
      have hsub : k₀ - (n + 1) < l.length := by omega
      have hn1 : n + 1 ≤ k₀ := by omega
      have h2 := ih (n + 1) hsub (by omega)
        (fun p hp hne => hzero p (List.mem_cons_of_mem _ hp) hne)
        (fun p hp he => hkeep p (List.mem_cons_of_mem _ hp) he)
      rw [h1, h2]
      simp only [List.nil_append]
      have hget : (a :: l).get ⟨k₀ - n, h⟩ = l.get ⟨k₀ - (n + 1), hsub⟩ := by
        have hidx : k₀ - n = (k₀ - (n + 1)) + 1 := by omega
        revert h
        rw [hidx]
        intro h
        exact List.get_cons_succ
      rw [hget]

theorem countP_isParentOf_section (cfg : Config) (name content name₀ : List Char)
    (k₀ : Nat) :
    (sectionChunks cfg (name, content)).countP (isParentOf (some (parentIdOf name₀ k₀)))
      = if name = name₀ ∧ k₀ < (parentSegs cfg content).length then 1 else 0 := by
  rw [sectionChunks_eq, List.countP_append]
  have hch : (((parentSegs cfg content).enum.map fun p =>
      childrenOf cfg name p.1 p.2).flatten).countP
        (isParentOf (some (parentIdOf name₀ k₀))) = 0 := by
    refine List.countP_eq_zero.mpr ?_
    intro a ha
    rcases List.mem_flatten.mp ha with ⟨blk, hblk, hablk⟩
    rcases List.mem_map.mp hblk with ⟨p, _, hpe⟩
    rw [← hpe] at hablk
    rcases List.mem_map.mp hablk with ⟨q, _, hqe⟩
    intro hcontra
    have := (isParentOf_iff _ _).mp hcontra
    rw [← hqe] at this
    have hpc : "child".data = "parent".data := this.1
    exact absurd hpc (by decide)
  rw [hch, Nat.add_zero, List.countP_map]
  by_cases hname : name = name₀
  · subst hname
    have hcong : ((parentSegs cfg content).enum).countP
        ((isParentOf (some (parentIdOf name k₀))) ∘ fun p => linkedParent cfg name p.1 p.2)
        = ((parentSegs cfg content).enum).countP (fun p => p.1 == k₀) := by
      refine List.countP_congr ?_
      intro x _
      simp only [Function.comp]
      rw [isParentOf_iff]
      constructor
      · intro hx
        have := Option.some.inj hx.2
        have hk := (parentIdOf_inj this).2
        simp [hk]
      · intro hx
        have hk : x.1 = k₀ := by simpa using hx
        refine ⟨rfl, ?_⟩
        rw [← hk]
        rfl
    rw [hcong]
    have : (parentSegs cfg content).enum = List.enumFrom 0 (parentSegs cfg content) := rfl
    rw [this, countP_enumFrom_fst_eq]
    by_cases hk : k₀ < (parentSegs cfg content).length
    · rw [if_pos (by omega), if_pos (by exact ⟨rfl, hk⟩)]
    · rw [if_neg (by omega), if_neg (by intro hc; exact hk hc.2)]
  · rw [if_neg (by intro hc; exact hname hc.1)]
    refine List.countP_eq_zero.mpr ?_
    intro x _
    simp only [Function.comp]
    intro hcontra
    have := (isParentOf_iff _ _).mp hcontra
    have hid := Option.some.inj this.2
    exact hname (parentIdOf_inj hid).1

theorem filter_isChildOf_section_ne (cfg : Config) (name content name₀ : List Char)
    (k₀ : Nat) (hne : name ≠ name₀) :
    (sectionChunks cfg (name, content)).filter (isChildOf (parentIdOf name₀ k₀))
      = [] := by
  refine List.filter_eq_nil_iff.mpr ?_
  intro a ha
  rw [sectionChunks_eq] at ha
  intro hcontra
  have hiff := (isChildOf_iff _ _).mp hcontra
  rcases List.mem_append.mp ha with h | h
  · rcases List.mem_map.mp h with ⟨p, _, hpe⟩
    rw [← hpe] at hiff
    have hpc : "parent".data = "child".data := hiff.1
    exact absurd hpc (by decide)
  · rcases List.mem_flatten.mp h with ⟨blk, hblk, hablk⟩
    rcases List.mem_map.mp hblk with ⟨p, _, hpe⟩
    rw [← hpe] at hablk
    rcases List.mem_map.mp hablk with ⟨q, _, hqe⟩
    rw [← hqe] at hiff
    have hid := Option.some.inj hiff.2
    exact hne (parentIdOf_inj hid).1

theorem filter_isChildOf_section_eq (cfg : Config) (name₀ content : List Char)
    (k₀ : Nat) (hk : k₀ < (parentSegs cfg content).length) :
    (sectionChunks cfg (name₀, content)).filter (isChildOf (parentIdOf name₀ k₀))
      = childrenOf cfg name₀ k₀
          ((parentSegs cfg content).get ⟨k₀, hk⟩) := by
  rw [sectionChunks_eq, List.filter_append]
  have hpar : ((parentSegs cfg content).enum.map fun p =>
      linkedParent cfg name₀ p.1 p.2).filter (isChildOf (parentIdOf name₀ k₀)) = [] := by
    refine List.filter_eq_nil_iff.mpr ?_
    intro a ha
    rcases List.mem_map.mp ha with ⟨p, _, hpe⟩
    intro hcontra
    have hiff := (isChildOf_iff _ _).mp hcontra
    rw [← hpe] at hiff
    have hpc : "parent".data = "child".data := hiff.1
    exact absurd hpc (by decide)
  rw [hpar, List.nil_append, List.filter_flatten, List.map_map]
  have hk0 : k₀ - 0 < (parentSegs cfg content).length := by omega
  have hzero : ∀ p ∈ List.enumFrom 0 (parentSegs cfg content), p.1 ≠ k₀ →
      (List.filter (isChildOf (parentIdOf name₀ k₀)) ∘ fun p =>
        childrenOf cfg name₀ p.1 p.2) p = [] := by
    intro p _ hne
    simp only [Function.comp]
    refine List.filter_eq_nil_iff.mpr ?_
    intro a ha
    rcases List.mem_map.mp ha with ⟨q, _, hqe⟩
    intro hcontra
    have hiff := (isChildOf_iff _ _).mp hcontra
    rw [← hqe] at hiff
    have hid := Option.some.inj hiff.2
    exact hne (parentIdOf_inj hid).2
  have hkeep : ∀ p ∈ List.enumFrom 0 (parentSegs cfg content), p.1 = k₀ →
      (List.filter (isChildOf (parentIdOf name₀ k₀)) ∘ fun p =>
        childrenOf cfg name₀ p.1 p.2) p
        = (fun p : Nat × List Char => childrenOf cfg name₀ p.1 p.2) p := by
    intro p _ hpk
    simp only [Function.comp]
    refine List.filter_eq_self.mpr ?_
    intro a ha
    rcases List.mem_map.mp ha with ⟨q, _, hqe⟩
    rw [← hqe]
    refine (isChildOf_iff _ _).mpr ⟨rfl, ?_⟩
    rw [hpk]
    rfl
  have hmain := flatten_enumFrom_single
    (fun p : Nat × List Char => childrenOf cfg name₀ p.1 p.2)
    (List.filter (isChildOf (parentIdOf name₀ k₀)) ∘ fun p =>
      childrenOf cfg name₀ p.1 p.2)
    k₀ 0 (parentSegs cfg content) hk0 (Nat.zero_le k₀) hzero hkeep
  exact hmain

theorem notin_side_names {docs s t : List (List Char × List Char)}
    {d₀ : List Char × List Char} (hdocs : docs = s ++ d₀ :: t)
    (hnd : (docs.map Prod.fst).Nodup) :
    d₀.1 ∉ s.map Prod.fst ∧ d₀.1 ∉ t.map Prod.fst := by
  subst hdocs
  rw [List.map_append, List.map_cons] at hnd
  have hmid := List.nodup_middle.mp hnd
  have hnotin := (List.nodup_cons.mp hmid).1
  exact ⟨fun hmem => hnotin (List.mem_append.mpr (Or.inl hmem)),
    fun hmem => hnotin (List.mem_append.mpr (Or.inr hmem))⟩

theorem countP_isParentOf_run (cfg : Config) (docs : List (List Char × List Char))
    (hnd : (docs.map Prod.fst).Nodup) (name₀ content₀ : List Char) (k₀ : Nat)
    (hdoc : (name₀, content₀) ∈ docs) (hk : k₀ < (parentSegs cfg content₀).length) :
    (create_hierarchical_chunks cfg docs).countP
      (isParentOf (some (parentIdOf name₀ k₀))) = 1 := by
  rw [run_eq,
    countP_assignIds (isParentOf (some (parentIdOf name₀ k₀))) (fun c g => rfl),
    countP_flatMap]
  rcases List.append_of_mem hdoc with ⟨s, t, hst⟩
  have hnames := notin_side_names hst hnd
  subst hst
  rw [List.map_append, List.map_cons, List.sum_append, List.sum_cons]
  have hs : (s.map fun d =>
      (sectionChunks cfg d).countP (isParentOf (some (parentIdOf name₀ k₀)))).sum = 0 := by
    refine List.sum_eq_zero ?_
    intro x hx
    rcases List.mem_map.mp hx with ⟨d, hd, hde⟩
    obtain ⟨dn, dc⟩ := d
    rw [← hde, countP_isParentOf_section, if_neg ?_]
    intro hcon
    exact hnames.1 (List.mem_map.mpr ⟨(dn, dc), hd, hcon.1⟩)
  have ht : (t.map fun d =>
      (sectionChunks cfg d).countP (isParentOf (some (parentIdOf name₀ k₀)))).sum = 0 := by
    refine List.sum_eq_zero ?_
    intro x hx
    rcases List.mem_map.mp hx with ⟨d, hd, hde⟩
    obtain ⟨dn, dc⟩ := d
    rw [← hde, countP_isParentOf_section, if_neg ?_]
    intro hcon
    exact hnames.2 (List.mem_map.mpr ⟨(dn, dc), hd, hcon.1⟩)
  rw [hs, ht, countP_isParentOf_section, if_pos ⟨rfl, hk⟩]
  omega

theorem parent_in_run_form (cfg : Config) (docs : List (List Char × List Char))
    (hnd : (docs.map Prod.fst).Nodup) {p : Chunk}
    (hp : p ∈ create_hierarchical_chunks cfg docs) {name₀ content₀ : List Char}
    {k₀ : Nat} (hdoc : (name₀, content₀) ∈ docs)
    (hk : k₀ < (parentSegs cfg content₀).length)
    (hmatch : isParentOf (some (parentIdOf name₀ k₀)) p = true) :
    p.child_chunk_ids
      = (childSegs cfg ((parentSegs cfg content₀).get ⟨k₀, hk⟩)).enum.map
          (fun q => childIdOf name₀ k₀ q.1) ∧
    p.child_count
      = (childSegs cfg ((parentSegs cfg content₀).get ⟨k₀, hk⟩)).length := by
  rcases mem_run_cases hp with ⟨doc, hdmem, g, hcase | hcase⟩
  · rcases hcase with ⟨pr, hpr, hpe⟩
    obtain ⟨k, seg⟩ := pr
    have hiff := (isParentOf_iff _ _).mp hmatch
    rw [hpe] at hiff
    have hid : parentIdOf doc.1 k = parentIdOf name₀ k₀ := Option.some.inj hiff.2
    obtain ⟨hname, hkk⟩ := parentIdOf_inj hid
    have hdoceq : doc = (name₀, content₀) :=
      List.inj_on_of_nodup_map hnd hdmem hdoc (by rw [hname])
    rw [hdoceq] at hpr
    have hmem := List.mem_enumFrom hpr
    subst hkk
    have hseg : seg = (parentSegs cfg content₀).get ⟨k, hk⟩ := by
      rw [List.get_eq_getElem]
      exact hmem.2.2
    rw [hpe, hname, hseg]
    exact ⟨rfl, rfl⟩
  · exfalso
    rcases hcase with ⟨pr, _, q, _, hpe⟩
    have hiff := (isParentOf_iff _ _).mp hmatch
    rw [hpe] at hiff
    have hcp : "child".data = "parent".data := hiff.1
    exact absurd hcp (by decide)

theorem child_in_run_form (cfg : Config) (docs : List (List Char × List Char))
    {c : Chunk} (hc : c ∈ create_hierarchical_chunks cfg docs)
    (hlev : c.level = "child".data) :
    ∃ name₀ content₀, (name₀, content₀) ∈ docs ∧
      ∃ k₀ i₀, ∃ hk : k₀ < (parentSegs cfg content₀).length,
        c.parent_id = some (parentIdOf name₀ k₀) ∧
        c.chunk_id = childIdOf name₀ k₀ i₀ ∧
        i₀ < (childSegs cfg ((parentSegs cfg content₀).get ⟨k₀, hk⟩)).length := by
  rcases mem_run_cases hc with ⟨doc, hdmem, g, hcase | hcase⟩
  · exfalso
    rcases hcase with ⟨pr, _, hpe⟩
    rw [hpe] at hlev
    have hpc : "parent".data = "child".data := hlev
    exact absurd hpc (by decide)
  · rcases hcase with ⟨pr, hpr, q, hq, hpe⟩
    obtain ⟨k, seg⟩ := pr
    obtain ⟨i, cs⟩ := q
    obtain ⟨name, content⟩ := doc
    have hmemp := List.mem_enumFrom hpr
    have hk : k < (parentSegs cfg content).length := by
      have h1 := hmemp.2.1
      simpa using h1
    have hseg : seg = (parentSegs cfg content).get ⟨k, hk⟩ := by
      rw [List.get_eq_getElem]
      exact hmemp.2.2
    have hmemq := List.mem_enumFrom hq
    have hi : i < (childSegs cfg seg).length := by
      have h1 := hmemq.2.1
      simpa using h1
    refine ⟨name, content, hdmem, k, i, hk, ?_, ?_, ?_⟩
    · rw [hpe]; rfl
    · rw [hpe]; rfl
    · rw [← hseg]; exact hi

theorem filter_map_isChildOf_run (cfg : Config) (docs : List (List Char × List Char))
    (hnd : (docs.map Prod.fst).Nodup) (name₀ content₀ : List Char) (k₀ : Nat)
    (hdoc : (name₀, content₀) ∈ docs) (hk : k₀ < (parentSegs cfg content₀).length) :
    ((create_hierarchical_chunks cfg docs).filter
        (isChildOf (parentIdOf name₀ k₀))).map (fun c => c.chunk_id)
      = (childSegs cfg ((parentSegs cfg content₀).get ⟨k₀, hk⟩)).enum.map
          (fun q => childIdOf name₀ k₀ q.1) := by
  rw [run_eq,
    filter_map_chunkId_assignIds (isChildOf (parentIdOf name₀ k₀)) (fun c g => rfl)]
  have hsplit : (docs.flatMap (sectionChunks cfg)).filter (isChildOf (parentIdOf name₀ k₀))
      = docs.flatMap (fun d => (sectionChunks cfg d).filter
          (isChildOf (parentIdOf name₀ k₀))) := by
    rw [List.flatMap_def, List.filter_flatten, List.map_map, List.flatMap_def]
    rfl
  rw [hsplit, List.flatMap_def, List.map_flatten, List.map_map]
  rcases List.append_of_mem hdoc with ⟨s, t, hst⟩
  have hnames := notin_side_names hst hnd
  subst hst
  rw [List.map_append, List.map_cons, List.flatten_append, List.flatten_cons]
  have hs : ((s.map ((fun l => List.map (fun c => c.chunk_id) l) ∘ fun d =>
      (sectionChunks cfg d).filter (isChildOf (parentIdOf name₀ k₀))))).flatten = [] := by
    refine flatten_map_eq_nil _ _ ?_
    intro d hd
    obtain ⟨dn, dc⟩ := d
    have hne : dn ≠ name₀ := by
      intro he
      exact hnames.1 (List.mem_map.mpr ⟨(dn, dc), hd, he⟩)
    simp only [Function.comp]
    rw [filter_isChildOf_section_ne cfg dn dc name₀ k₀ hne]
    rfl
  have ht : ((t.map ((fun l => List.map (fun c => c.chunk_id) l) ∘ fun d =>
      (sectionChunks cfg d).filter (isChildOf (parentIdOf name₀ k₀))))).flatten = [] := by
    refine flatten_map_eq_nil _ _ ?_
    intro d hd
    obtain ⟨dn, dc⟩ := d
    have hne : dn ≠ name₀ := by
      intro he
      exact hnames.2 (List.mem_map.mpr ⟨(dn, dc), hd, he⟩)
    simp only [Function.comp]
    rw [filter_isChildOf_section_ne cfg dn dc name₀ k₀ hne]
    rfl
  rw [hs, ht, List.nil_append, List.append_nil]
  simp only [Function.comp]
  rw [filter_isChildOf_section_eq cfg name₀ content₀ k₀ hk]
  rw [childrenOf, List.map_map]
  rfl

/-- C7: in any run over documents with distinct section names (as a Python
dict guarantees), every Child's `parent_id` matches exactly one Parent chunk
of the run; that Parent's `child_chunk_ids` contains the Child's id exactly
once; and conversely every Parent's `child_chunk_ids` is exactly the ordered
list of ids of the run's Children whose `parent_id` equals the Parent's id,
with `child_count` equal to its length. -/
theorem c7_parent_child_linkage (cfg : Config)
    (docs : List (List Char × List Char)) (hnd : (docs.map Prod.fst).Nodup) :
    (∀ c ∈ create_hierarchical_chunks cfg docs, c.level = "child".data →
      (create_hierarchical_chunks cfg docs).countP (isParentOf c.parent_id) = 1 ∧
      ∀ p ∈ create_hierarchical_chunks cfg docs, isParentOf c.parent_id p = true →
        p.child_chunk_ids.count c.chunk_id = 1) ∧
    (∀ p ∈ create_hierarchical_chunks cfg docs, p.level = "parent".data →
      p.child_chunk_ids
        = ((create_hierarchical_chunks cfg docs).filter
            (isChildOf p.chunk_id)).map (fun c => c.chunk_id) ∧
      p.child_count = p.child_chunk_ids.length) := by
  constructor
  · intro c hc hlev
    obtain ⟨name₀, content₀, hdoc, k₀, i₀, hk, hpid, hcid, hi⟩ :=
      child_in_run_form cfg docs hc hlev
    constructor
    · rw [hpid]
      exact countP_isParentOf_run cfg docs hnd name₀ content₀ k₀ hdoc hk
    · intro p hp hmatch
      rw [hpid] at hmatch
      obtain ⟨hcids, _⟩ := parent_in_run_form cfg docs hnd hp hdoc hk hmatch
      rw [hcids, hcid, List.count_eq_countP, List.countP_map]
      have hcong : ((childSegs cfg
            ((parentSegs cfg content₀).get ⟨k₀, hk⟩)).enum).countP
          ((fun x => x == childIdOf name₀ k₀ i₀) ∘ fun q => childIdOf name₀ k₀ q.1)
          = ((childSegs cfg
            ((parentSegs cfg content₀).get ⟨k₀, hk⟩)).enum).countP
            (fun q => q.1 == i₀) := by
        refine List.countP_congr ?_
        intro x _
        simp only [Function.comp]
        rw [beq_iff_eq, beq_iff_eq]
        constructor
        · intro hx
          exact (childIdOf_inj hx).2.2
        · intro hx
          rw [hx]
      rw [hcong]
      have henum : (childSegs cfg ((parentSegs cfg content₀).get ⟨k₀, hk⟩)).enum
          = List.enumFrom 0 (childSegs cfg ((parentSegs cfg content₀).get ⟨k₀, hk⟩)) :=
        rfl
      rw [henum, countP_enumFrom_fst_eq, if_pos (by omega)]
  · intro p hp hlev
    rcases mem_run_cases hp with ⟨doc, hdmem, g, hcase | hcase⟩
    · rcases hcase with ⟨pr, hpr, hpe⟩
      obtain ⟨k, seg⟩ := pr
      obtain ⟨name, content⟩ := doc
      have hmemp := List.mem_enumFrom hpr
      have hk : k < (parentSegs cfg content).length := by
        have h1 := hmemp.2.1
        simpa using h1
      have hseg : seg = (parentSegs cfg content).get ⟨k, hk⟩ := by
        rw [List.get_eq_getElem]
        exact hmemp.2.2
      have hidp : p.chunk_id = parentIdOf name k := by rw [hpe]; rfl
      constructor
      · rw [hidp, filter_map_isChildOf_run cfg docs hnd name content k hdmem hk]
        rw [hpe, hseg]
        rfl
      · rw [hpe]
        show (childSegs cfg seg).length
          = ((childSegs cfg seg).enum.map fun q => childIdOf name k q.1).length
        rw [List.length_map, List.enum_length]
    · exfalso
      rcases hcase with ⟨pr, _, q, _, hpe⟩
      rw [hpe] at hlev
      have hcp : "child".data = "parent".data := hlev
      exact absurd hcp (by decide)

/-- Witness for C7: in the run over one short document (one parent, one
child), the child's `parent_id` matches exactly one parent, that parent's id
list holds the child id once, and the parent's id list and count agree with
the filtered children. -/
theorem c7_parent_child_linkage_witness :
    ((create_hierarchical_chunks (mkConfig 4096) [("a".data, "hi".data)]).countP
        (isParentOf (((create_hierarchical_chunks (mkConfig 4096)
          [("a".data, "hi".data)]).getD 1 emptyParent).parent_id)) = 1 ∧
      ((create_hierarchical_chunks (mkConfig 4096)
          [("a".data, "hi".data)]).getD 0 emptyParent).child_chunk_ids.count
        ((create_hierarchical_chunks (mkConfig 4096)
          [("a".data, "hi".data)]).getD 1 emptyParent).chunk_id = 1) ∧
    ((create_hierarchical_chunks (mkConfig 4096)
        [("a".data, "hi".data)]).getD 0 emptyParent).child_chunk_ids
      = ((create_hierarchical_chunks (mkConfig 4096) [("a".data, "hi".data)]).filter
          (isChildOf (((create_hierarchical_chunks (mkConfig 4096)
            [("a".data, "hi".data)]).getD 0 emptyParent).chunk_id))).map
          (fun c => c.chunk_id) := by
  have h := c7_parent_child_linkage (mkConfig 4096) [("a".data, "hi".data)] (by decide)
  have h1 := h.1 ((create_hierarchical_chunks (mkConfig 4096)
      [("a".data, "hi".data)]).getD 1 emptyParent) (by decide) (by decide)
  have h2 := h.2 ((create_hierarchical_chunks (mkConfig 4096)
      [("a".data, "hi".data)]).getD 0 emptyParent) (by decide) (by decide)
  exact ⟨⟨h1.1, h1.2 _ (by decide) (by decide)⟩, h2.1⟩

/-! ### Claim C8 machinery: the size invariant of the splitter -/

theorem length_dropWhile_le (p : Char → Bool) (l : List Char) :
    (l.dropWhile p).length ≤ l.length := by
  induction l with
  | nil => simp [List.dropWhile]
  | cons x xs ih =>
    by_cases hx : p x = true
    · simp [List.dropWhile, hx]
      omega
    · simp [List.dropWhile, hx]

theorem strip_length_le (s : List Char) : (strip s).length ≤ s.length := by
  unfold strip
  have h1 := length_dropWhile_le isWs s
  have h2 := length_dropWhile_le isWs (s.dropWhile isWs).reverse
  simp only [List.length_reverse] at h2 ⊢
  omega

theorem lastChars_length_le (k : Nat) (s : List Char) :
    (lastChars k s).length ≤ k := by
  unfold lastChars
  rw [List.length_drop]
  omega

theorem splitSentGo_frag_le (l : List Char) : ∀ (skipping : Bool) (cur : List Char),
    ∀ s ∈ splitSentGo skipping cur l, s.length ≤ cur.length + l.length := by
  induction l with
  | nil =>
    intro skipping cur s hs
    simp only [splitSentGo] at hs
    rcases List.mem_singleton.mp hs with rfl
    simp
  | cons d rest ih =>
    intro skipping cur s hs
    simp only [splitSentGo] at hs
    by_cases hsk : skipping
    · rw [if_pos hsk] at hs
      by_cases hw : isWs d = true
      · rw [if_pos hw] at hs
        have := ih true cur s hs
        simp only [List.length_cons]
        omega
      · rw [if_neg hw] at hs
        have := ih false [d] s hs
        simp only [List.length_cons, List.length_nil] at this ⊢
        omega
    · rw [if_neg hsk] at hs
      by_cases hw : (isWs d && endsSentEnd cur) = true
      · rw [if_pos hw] at hs
        rcases List.mem_cons.mp hs with rfl | hmem
        · simp only [List.length_reverse, List.length_cons]
          omega
        · have := ih true [] s hmem
          simp only [List.length_nil, List.length_cons] at this ⊢
          omega
      · rw [if_neg hw] at hs
        have := ih false (d :: cur) s hs
        simp only [List.length_cons] at this ⊢
        omega

theorem splitSentences_frag_le (l : List Char) :
    ∀ s ∈ splitSentences l, s.length ≤ l.length := by
  intro s hs
  have := splitSentGo_frag_le l false [] s hs
  simpa using this

theorem getLastD_mem_or {α : Type _} (l : List α) (d : α) :
    l.getLastD d ∈ l ∨ l.getLastD d = d := by
  induction l generalizing d with
  | nil => exact Or.inr rfl
  | cons a l ih =>
    rw [List.getLastD_cons]
    rcases ih a with h | h
    · exact Or.inl (List.mem_cons_of_mem a h)
    · rw [h]
      exact Or.inl (List.mem_cons_self a l)

/-- The overlap reseed computed at transform.py lines 317-323 never exceeds
`overlap` characters. -/
theorem reseed_length_le (overlap : Nat) (cur : List Char)
    (h : overlap < cur.length) :
    ((splitSentences (lastChars overlap cur)).getLastD
      (lastChars overlap cur)).length ≤ overlap := by
  have hlast := lastChars_length_le overlap cur
  rcases getLastD_mem_or (splitSentences (lastChars overlap cur))
      (lastChars overlap cur) with hm | he
  · have := splitSentences_frag_le (lastChars overlap cur) _ hm
    omega
  · rw [he]
    exact hlast

/-- The size invariant carried through the splitter loops: every emitted chunk
and the accumulator stay within `target + overlap + 1` characters. -/
def sizeInv (target overlap : Nat) (st : List (List Char) × List Char) : Prop :=
  (∀ c ∈ st.1, c.length ≤ target + overlap + 1) ∧
  st.2.length ≤ target + overlap + 1

theorem sentenceStep_sizeInv (target overlap : Nat)
    (st : List (List Char) × List Char) (s : List Char)
    (hs : s.length ≤ target) (hst : sizeInv target overlap st) :
    sizeInv target overlap (sentenceStep target overlap st s) := by
  obtain ⟨hchunks, htemp⟩ := hst
  unfold sentenceStep
  by_cases h1 : (st.2 ++ ' ' :: s).length ≤ target
  · rw [if_pos h1]
    refine ⟨hchunks, ?_⟩
    by_cases h2 : st.2.isEmpty
    · rw [if_pos h2]
      show s.length ≤ target + overlap + 1
      omega
    · rw [if_neg h2]
      show (st.2 ++ ' ' :: s).length ≤ target + overlap + 1
      omega
  · rw [if_neg h1]
    by_cases h2 : st.2.isEmpty
    · rw [if_pos h2]
      refine ⟨?_, by show ([] : List Char).length ≤ target + overlap + 1; simp⟩
      intro c hcmem
      rcases List.mem_append.mp hcmem with hm | hm
      · exact hchunks c hm
      · rcases List.mem_singleton.mp hm with rfl
        have := strip_length_le s
        omega
    · rw [if_neg h2]
      refine ⟨?_, ?_⟩
      · intro c hcmem
        rcases List.mem_append.mp hcmem with hm | hm
        · exact hchunks c hm
        · rcases List.mem_singleton.mp hm with rfl
          have := strip_length_le st.2
          omega
      · by_cases h3 : 0 < overlap
        · rw [if_pos h3]
          by_cases h4 : overlap < st.2.length
          · rw [if_pos h4]
            show ((lastChars overlap st.2) ++ ' ' :: s).length ≤ target + overlap + 1
            have hop : (lastChars overlap st.2).length ≤ overlap :=
              lastChars_length_le overlap st.2
            simp only [List.length_append, List.length_cons]
            omega
          · rw [if_neg h4]
            show (st.2 ++ ' ' :: s).length ≤ target + overlap + 1
            simp only [List.length_append, List.length_cons]
            omega
        · rw [if_neg h3]
          show s.length ≤ target + overlap + 1
          omega

theorem foldl_sentenceStep_sizeInv (target overlap : Nat) :
    ∀ (sents : List (List Char)) (st : List (List Char) × List Char),
    (∀ s ∈ sents, s.length ≤ target) → sizeInv target overlap st →
    sizeInv target overlap (sents.foldl (sentenceStep target overlap) st) := by
  intro sents
  induction sents with
  | nil => intro st _ hst; exact hst
  | cons s sents ih =>
    intro st hs hst
    rw [List.foldl_cons]
    exact ih _ (fun x hx => hs x (List.mem_cons_of_mem s hx))
      (sentenceStep_sizeInv target overlap st s (hs s (List.mem_cons_self s sents)) hst)

theorem paraStep_sizeInv (target overlap : Nat)
    (st : List (List Char) × List Char) (para : List Char)
    (hpa : ∀ s ∈ splitSentences para, s.length ≤ target)
    (hst : sizeInv target overlap st) :
    sizeInv target overlap (paraStep target overlap st para) := by
  obtain ⟨hchunks, hcur⟩ := hst
  unfold paraStep
  by_cases h1 : (if st.2.isEmpty then para else st.2 ++ '\n' :: '\n' :: para).length ≤ target
  · rw [if_pos h1]
    refine ⟨hchunks, ?_⟩
    show (if st.2.isEmpty then para else st.2 ++ '\n' :: '\n' :: para).length
      ≤ target + overlap + 1
    omega
  · rw [if_neg h1]
    have hchunks2 : ∀ c ∈ (if st.2.isEmpty then st.1 else st.1 ++ [strip st.2]),
        c.length ≤ target + overlap + 1 := by
      by_cases h2 : st.2.isEmpty
      · rw [if_pos h2]; exact hchunks
      · rw [if_neg h2]
        intro c hcmem
        rcases List.mem_append.mp hcmem with hm | hm
        · exact hchunks c hm
        · rcases List.mem_singleton.mp hm with rfl
          have := strip_length_le st.2
          omega
    have hcur2 : (if st.2.isEmpty then st.2
        else if 0 < overlap && overlap < st.2.length then
          (splitSentences (lastChars overlap st.2)).getLastD (lastChars overlap st.2)
        else []).length ≤ overlap := by
      by_cases h2 : st.2.isEmpty
      · rw [if_pos h2]
        rcases List.isEmpty_iff.mp h2 with h3
        simp [h3]
      · rw [if_neg h2]
        by_cases h3 : (0 < overlap && overlap < st.2.length) = true
        · rw [if_pos h3]
          simp only [Bool.and_eq_true, decide_eq_true_eq] at h3
          exact reseed_length_le overlap st.2 h3.2
        · rw [if_neg h3]
          simp
    by_cases h5 : target < para.length
    · rw [if_pos h5]
      refine foldl_sentenceStep_sizeInv target overlap (splitSentences para) _ hpa
        ⟨hchunks2, ?_⟩
      show (if st.2.isEmpty then st.2
          else if 0 < overlap && overlap < st.2.length then
            (splitSentences (lastChars overlap st.2)).getLastD (lastChars overlap st.2)
          else []).length ≤ target + overlap + 1
      omega
    · rw [if_neg h5]
      refine ⟨hchunks2, ?_⟩
      show para.length ≤ target + overlap + 1
      omega

theorem foldl_paraStep_sizeInv (target overlap : Nat) :
    ∀ (paras : List (List Char)) (st : List (List Char) × List Char),
    (∀ para ∈ paras, ∀ s ∈ splitSentences para, s.length ≤ target) →
    sizeInv target overlap st →
    sizeInv target overlap (paras.foldl (paraStep target overlap) st) := by
  intro paras
  induction paras with
  | nil => intro st _ hst; exact hst
  | cons para paras ih =>
    intro st hp hst
    rw [List.foldl_cons]
    exact ih _ (fun x hx => hp x (List.mem_cons_of_mem para hx))
      (paraStep_sizeInv target overlap st para (hp para (List.mem_cons_self para paras)) hst)

/-- The emitted-chunk size bound of the splitter: when no single sentence of
any paragraph exceeds the budget, every chunk stays within one overlap length
plus one joining space of the budget, and no chunk is empty after trimming. -/
theorem smart_split_bound (content : List Char) (target overlap : Nat)
    (hsent : ∀ para ∈ splitParas content, ∀ s ∈ splitSentences para,
      s.length ≤ target) :
    ∀ c ∈ smart_split_content content target overlap,
      c.length ≤ target + overlap + 1 ∧ strip c ≠ [] := by
  intro c hc
  unfold smart_split_content at hc
  have hfold := foldl_paraStep_sizeInv target overlap (splitParas content)
    ([], []) hsent ⟨by intro c h; simp at h, by simp⟩
  rcases List.mem_filter.mp hc with ⟨hmem, hpred⟩
  have hne : strip c ≠ [] := by
    intro he
    rw [he] at hpred
    simp at hpred
  refine ⟨?_, hne⟩
  set st := (splitParas content).foldl (paraStep target overlap) ([], []) with hst
  by_cases h2 : st.2.isEmpty
  · rw [if_pos h2] at hmem
    exact hfold.1 c hmem
  · rw [if_neg h2] at hmem
    rcases List.mem_append.mp hmem with hm | hm
    · exact hfold.1 c hm
    · rcases List.mem_singleton.mp hm with rfl
      have := strip_length_le st.2
      have := hfold.2
      omega

/-- C8 counterexample: a run with no oversized atomic unit (every sentence is
at most the 400-char child budget, and the single paragraph contains sentence
punctuation) in which a child chunk reaches 451 = 400 + 50 + 1 characters,
exceeding the claimed slack of one overlap length (450): the overlap reseed
at line 340 joins the 50-char overlap part and a 400-char sentence with an
extra space. -/
theorem c8_counterexample_slack_exceeded :
    ((create_hierarchical_chunks (mkConfig 4096)
        [("d".data, (List.replicate 49 'a' ++ ['.', ' ']) ++
          (List.replicate 399 'b' ++ ['.', ' ']) ++ ['c', '.'])]).map
      fun c => (c.level, c.char_count))
      = [("parent".data, 454), ("child".data, 50), ("child".data, 451),
         ("child".data, 53)] ∧
    (∀ s ∈ splitSentences ((List.replicate 49 'a' ++ ['.', ' ']) ++
        (List.replicate 399 'b' ++ ['.', ' ']) ++ ['c', '.']),
      s.length ≤ 400) ∧
    (splitParas ((List.replicate 49 'a' ++ ['.', ' ']) ++
        (List.replicate 399 'b' ++ ['.', ' ']) ++ ['c', '.'])).length = 1 ∧
    400 + 50 < 451 := by
  refine ⟨by decide, by decide, by decide, by decide⟩

/-- C8 amended: when no single sentence of any paragraph exceeds the target
(no OversizedAtomicUnit arises), every produced chunk's `char_count` is at
most the target size plus one overlap length plus one joining space
(`targetSize + overlapSize + 1`), and no produced chunk is empty after
trimming; chunks into which an oversized sentence is folded can exceed this
bound. -/
theorem c8_size_discipline (cfg : Config) (name content : List Char)
    (hsentP : ∀ para ∈ splitParas content, ∀ s ∈ splitSentences para,
      s.length ≤ cfg.parent_chunk_size)
    (htrim : strip content ≠ []) :
    (∀ c ∈ create_parent_chunks cfg name content,
      c.char_count ≤ cfg.parent_chunk_size + cfg.overlap_size + 1 ∧
      strip c.content ≠ []) ∧
    (∀ (p : Chunk) (i : Nat),
      (∀ para ∈ splitParas p.content, ∀ s ∈ splitSentences para,
        s.length ≤ cfg.child_chunk_size) →
      strip p.content ≠ [] →
      ∀ c ∈ create_child_chunks cfg name p i,
        c.char_count ≤ cfg.child_chunk_size + cfg.overlap_size + 1 ∧
        strip c.content ≠ []) := by
  constructor
  · intro c hc
    rw [create_parent_chunks_eq] at hc
    rcases List.mem_map.mp hc with ⟨q, hq, hqe⟩
    unfold parentSegs at hq
    by_cases hlen : content.length ≤ cfg.parent_chunk_size
    · rw [if_pos hlen] at hq
      have hq1 : q = (0, content) := by
        have : ([content] : List (List Char)).enum = [(0, content)] := rfl
        rw [this] at hq
        exact List.mem_singleton.mp hq
      rw [← hqe, hq1]
      exact ⟨by show content.length ≤ _; omega, htrim⟩
    · rw [if_neg hlen] at hq
      have hseg := List.mem_enumFrom hq
      have hmem : q.2 ∈ smart_split_content content cfg.parent_chunk_size
          cfg.overlap_size := by
        have h1 := hseg.2.2
        rw [h1]
        exact List.getElem_mem _
      have := smart_split_bound content cfg.parent_chunk_size cfg.overlap_size
        hsentP q.2 hmem
      rw [← hqe]
      exact ⟨this.1, this.2⟩
  · intro p i hsentC htrimC c hc
    unfold create_child_chunks at hc
    by_cases hlen : p.content.length ≤ cfg.child_chunk_size
    · rw [if_pos hlen] at hc
      rcases List.mem_singleton.mp hc with rfl
      refine ⟨?_, htrimC⟩
      show p.content.length ≤ cfg.child_chunk_size + cfg.overlap_size + 1
      omega
    · rw [if_neg hlen] at hc
      rcases List.mem_map.mp hc with ⟨q, hq, hqe⟩
      have hseg := List.mem_enumFrom hq
      have hmem : q.2 ∈ smart_split_content p.content cfg.child_chunk_size
          cfg.overlap_size := by
        have h1 := hseg.2.2
        rw [h1]
        exact List.getElem_mem _
      have := smart_split_bound p.content cfg.child_chunk_size cfg.overlap_size
        hsentC q.2 hmem
      rw [← hqe]
      exact ⟨this.1, this.2⟩

/-- Witness for the amended C8 theorem at a concrete run: the single parent
chunk of a short document respects the bound and is non-empty. -/
theorem c8_size_discipline_witness :
    ((create_parent_chunks (mkConfig 4096) "s".data "hi.".data).getD 0
        emptyParent).char_count ≤ 1200 + 50 + 1 ∧
    strip (((create_parent_chunks (mkConfig 4096) "s".data "hi.".data).getD 0
        emptyParent).content) ≠ [] :=
  (c8_size_discipline (mkConfig 4096) "s".data "hi.".data (by decide) (by decide)).1
    _ (by decide)

/-! ### Claim C9 machinery: reconstruction up to whitespace -/

/-- All non-whitespace characters of a string, in order.  Two strings are
equal "up to whitespace normalization" (in the sense of the specification's
gloss: no non-whitespace text lost or reordered) precisely when their
`eraseWs` images are equal. -/
def eraseWs (s : List Char) : List Char := s.filter (fun c => !isWs c)

theorem eraseWs_append (a b : List Char) :
    eraseWs (a ++ b) = eraseWs a ++ eraseWs b := by
  simp [eraseWs, List.filter_append]

theorem eraseWs_cons_ws (c : Char) (hc : isWs c = true) (s : List Char) :
    eraseWs (c :: s) = eraseWs s := by
  simp [eraseWs, List.filter_cons, hc]

theorem eraseWs_dropWhile (l : List Char) :
    eraseWs (l.dropWhile isWs) = eraseWs l := by
  induction l with
  | nil => rfl
  | cons a l ih =>
    by_cases ha : isWs a = true
    · rw [List.dropWhile_cons_of_pos ha, ih, eraseWs_cons_ws a ha]
    · rw [List.dropWhile_cons_of_neg ha]

theorem eraseWs_reverse (l : List Char) :
    eraseWs l.reverse = (eraseWs l).reverse := by
  simp [eraseWs, List.filter_reverse]

theorem eraseWs_strip (s : List Char) : eraseWs (strip s) = eraseWs s := by
  unfold strip
  rw [eraseWs_reverse, eraseWs_dropWhile, eraseWs_reverse, List.reverse_reverse,
    eraseWs_dropWhile]

theorem eraseWs_eq_nil_of_strip_eq_nil {s : List Char} (h : strip s = []) :
    eraseWs s = [] := by
  rw [← eraseWs_strip, h]
  rfl

/-- Splitting on paragraph separators only discards whitespace. -/
theorem splitParasGo_eraseWs (cur l : List Char) :
    ((splitParasGo cur l).map eraseWs).flatten = eraseWs cur.reverse ++ eraseWs l := by
  induction cur, l using splitParasGo.induct with
  | case1 cur =>
    simp [splitParasGo, eraseWs]
  | case2 cur c =>
    simp only [splitParasGo, List.map_cons, List.map_nil, List.flatten,
      List.append_nil]
    rw [eraseWs_reverse, eraseWs_reverse]
    simp [eraseWs, List.filter_cons]
    by_cases hc : isWs c = true <;> simp [hc]
  | case3 cur c d rest hcd ih =>
    simp only [Bool.and_eq_true, decide_eq_true_eq] at hcd
    obtain ⟨rfl, rfl⟩ := hcd
    rw [show splitParasGo cur ('\n' :: '\n' :: rest)
        = cur.reverse :: splitParasGo [] rest from rfl]
    simp only [List.map_cons, List.flatten_cons, ih]
    simp only [eraseWs_cons_ws '\n' (by decide)]
    simp [eraseWs]
  | case4 cur c d rest hcd ih =>
    rw [show splitParasGo cur (c :: d :: rest)
        = if (decide (c = '\n') && decide (d = '\n')) = true then
            cur.reverse :: splitParasGo [] rest
          else splitParasGo (c :: cur) (d :: rest) from rfl]
    rw [if_neg hcd, ih]
    rw [show (c :: cur).reverse = cur.reverse ++ [c] from by simp]
    rw [eraseWs_append]
    by_cases hc : isWs c = true
    · simp only [eraseWs_cons_ws c hc]
      simp [eraseWs]
    · have h1 : eraseWs [c] = [c] := by simp [eraseWs, List.filter_cons, hc]
      have h2 : eraseWs (c :: (d :: rest)) = c :: eraseWs (d :: rest) := by
        simp [eraseWs, List.filter_cons, hc]
      rw [h1, h2]
      simp

theorem splitParas_eraseWs (content : List Char) :
    ((splitParas content).map eraseWs).flatten = eraseWs content := by
  have := splitParasGo_eraseWs [] content
  simpa [splitParas, eraseWs] using this

/-- Splitting on sentence boundaries only discards whitespace (in skipping
mode the current fragment is empty). -/
theorem splitSentGo_eraseWs (l : List Char) : ∀ (skipping : Bool) (cur : List Char),
    (skipping = true → cur = []) →
    ((splitSentGo skipping cur l).map eraseWs).flatten
      = eraseWs cur.reverse ++ eraseWs l := by
  induction l with
  | nil =>
    intro skipping cur _
    simp [splitSentGo, eraseWs]
  | cons d rest ih =>
    intro skipping cur hskip
    simp only [splitSentGo]
    by_cases hsk : skipping
    · rw [if_pos hsk]
      have hcur : cur = [] := hskip hsk
      subst hcur
      by_cases hw : isWs d = true
      · rw [if_pos hw, ih true [] (fun _ => rfl), eraseWs_cons_ws d hw]
      · rw [if_neg hw, ih false [d] (by simp)]
        have h1 : eraseWs [d].reverse = [d] := by
          simp [eraseWs, List.filter_cons, hw]
        have h2 : eraseWs (d :: rest) = d :: eraseWs rest := by
          simp [eraseWs, List.filter_cons, hw]
        rw [h1, h2]
        simp [eraseWs]
    · rw [if_neg hsk]
      by_cases hw : (isWs d && endsSentEnd cur) = true
      · rw [if_pos hw]
        simp only [List.map_cons, List.flatten_cons]
        rw [ih true [] (fun _ => rfl)]
        simp only [Bool.and_eq_true] at hw
        rw [eraseWs_cons_ws d hw.1]
        simp [eraseWs]
      · rw [if_neg hw]
        rw [ih false (d :: cur) (by simp)]
        rw [show (d :: cur).reverse = cur.reverse ++ [d] from by simp, eraseWs_append]
        by_cases hwd : isWs d = true
        · simp only [eraseWs_cons_ws d hwd]
          simp [eraseWs]
        · have h1 : eraseWs [d] = [d] := by simp [eraseWs, List.filter_cons, hwd]
          have h2 : eraseWs (d :: rest) = d :: eraseWs rest := by
            simp [eraseWs, List.filter_cons, hwd]
          rw [h1, h2]
          simp

theorem splitSentences_eraseWs (l : List Char) :
    ((splitSentences l).map eraseWs).flatten = eraseWs l := by
  have := splitSentGo_eraseWs l false [] (by simp)
  simpa [splitSentences, eraseWs] using this

/-- Annotated state for the splitter: the emitted segments as
(overlap seed, body) pairs, plus the current accumulator's seed and body.
The plain accumulator is always `seed ++ body`; a segment's overlap seed is
the reseeded overlap text carried into it, its body the text accumulated
afterwards. -/
def sentenceStepA (target overlap : Nat)
    (st : List (List Char × List Char) × List Char × List Char)
    (s : List Char) : List (List Char × List Char) × List Char × List Char :=
  let done := st.1
  let seed := st.2.1
  let rest := st.2.2
  let temp := seed ++ rest
  if (temp ++ ' ' :: s).length ≤ target then
    (done, if temp.isEmpty then ([], s) else (seed, rest ++ ' ' :: s))
  else if temp.isEmpty then
    (done ++ [([], s)], [], [])
  else
    (done ++ [(seed, rest)],
     if 0 < overlap then
       (if overlap < temp.length then lastChars overlap temp else temp)
     else [],
     if 0 < overlap then ' ' :: s else s)

/-- The annotated mirror of `paraStep`. -/
def paraStepA (target overlap : Nat)
    (st : List (List Char × List Char) × List Char × List Char)
    (para : List Char) : List (List Char × List Char) × List Char × List Char :=
  let done := st.1
  let seed := st.2.1
  let rest := st.2.2
  let cur := seed ++ rest
  let test := if cur.isEmpty then para else cur ++ '\n' :: '\n' :: para
  if test.length ≤ target then
    (done, if cur.isEmpty then ([], para) else (seed, rest ++ '\n' :: '\n' :: para))
  else
    let done2 := if cur.isEmpty then done else done ++ [(seed, rest)]
    let seed2 : List Char :=
      if cur.isEmpty then []
      else if 0 < overlap && overlap < cur.length then
        (splitSentences (lastChars overlap cur)).getLastD (lastChars overlap cur)
      else []
    if target < para.length then
      (splitSentences para).foldl (sentenceStepA target overlap) (done2, seed2, [])
    else
      (done2, [], para)

/-- The annotated splitter: the (seed, body) decomposition of every
accumulator the plain splitter emits, in order, before the final
empty-after-trimming filter. -/
def smart_split_annotated (content : List Char) (target overlap : Nat) :
    List (List Char × List Char) :=
  let st := (splitParas content).foldl (paraStepA target overlap) ([], [], [])
  if (st.2.1 ++ st.2.2).isEmpty then st.1 else st.1 ++ [(st.2.1, st.2.2)]

/-- Project the annotated state to the plain splitter's state. -/
def projS (st : List (List Char × List Char) × List Char × List Char) :
    List (List Char) × List Char :=
  (st.1.map (fun p => strip (p.1 ++ p.2)), st.2.1 ++ st.2.2)

theorem sentenceStepA_proj (target overlap : Nat)
    (st : List (List Char × List Char) × List Char × List Char) (s : List Char) :
    sentenceStep target overlap (projS st) s = projS (sentenceStepA target overlap st s) := by
  obtain ⟨done, seed, rest⟩ := st
  unfold sentenceStep sentenceStepA projS
  dsimp only
  by_cases h1 : ((seed ++ rest) ++ ' ' :: s).length ≤ target
  · rw [if_pos h1, if_pos h1]
    by_cases h2 : (seed ++ rest).isEmpty
    · rw [if_pos h2, if_pos h2]
      rfl
    · rw [if_neg h2, if_neg h2]
      simp [List.append_assoc]
  · rw [if_neg h1, if_neg h1]
    by_cases h2 : (seed ++ rest).isEmpty
    · rw [if_pos h2, if_pos h2]
      simp
    · rw [if_neg h2, if_neg h2]
      by_cases h3 : 0 < overlap
      · rw [if_pos h3, if_pos h3, if_pos h3]
        simp
      · rw [if_neg h3, if_neg h3, if_neg h3]
        simp

theorem foldl_sentenceStepA_proj (target overlap : Nat) :
    ∀ (sents : List (List Char))
    (st : List (List Char × List Char) × List Char × List Char),
    sents.foldl (sentenceStep target overlap) (projS st)
      = projS (sents.foldl (sentenceStepA target overlap) st) := by
  intro sents
  induction sents with
  | nil => intro st; rfl
  | cons s sents ih =>
    intro st
    rw [List.foldl_cons, List.foldl_cons, sentenceStepA_proj, ih]

theorem paraStepA_proj (target overlap : Nat)
    (st : List (List Char × List Char) × List Char × List Char) (para : List Char) :
    paraStep target overlap (projS st) para = projS (paraStepA target overlap st para) := by
  obtain ⟨done, seed, rest⟩ := st
  unfold paraStep paraStepA projS
  dsimp only
  by_cases h1 : (if (seed ++ rest).isEmpty then para
      else (seed ++ rest) ++ '\n' :: '\n' :: para).length ≤ target
  · rw [if_pos h1, if_pos h1]
    by_cases h2 : (seed ++ rest).isEmpty
    · rw [if_pos h2, if_pos h2]
      rfl
    · rw [if_neg h2, if_neg h2]
      simp [List.append_assoc]
  · rw [if_neg h1, if_neg h1]
    by_cases h5 : target < para.length
    · rw [if_pos h5, if_pos h5]
      by_cases h2 : (seed ++ rest).isEmpty
      · simp only [if_pos h2]
        have hsr := List.isEmpty_iff.mp h2
        have hpr := foldl_sentenceStepA_proj target overlap (splitSentences para)
          (done, [], [])
        unfold projS at hpr
        simp only [List.append_nil] at hpr
        rw [← hpr, hsr]
      · simp only [if_neg h2]
        by_cases h3 : (0 < overlap && overlap < (seed ++ rest).length) = true
        · simp only [if_pos h3]
          have hpr := foldl_sentenceStepA_proj target overlap (splitSentences para)
            (done ++ [(seed, rest)],
             (splitSentences (lastChars overlap (seed ++ rest))).getLastD
               (lastChars overlap (seed ++ rest)), [])
          unfold projS at hpr
          simp only [List.append_nil, List.map_append, List.map_cons,
            List.map_nil] at hpr
          rw [← hpr]
        · simp only [if_neg h3]
          have hpr := foldl_sentenceStepA_proj target overlap (splitSentences para)
            (done ++ [(seed, rest)], [], [])
          unfold projS at hpr
          simp only [List.append_nil, List.map_append, List.map_cons,
            List.map_nil] at hpr
          rw [← hpr]
    · rw [if_neg h5, if_neg h5]
      by_cases h2 : (seed ++ rest).isEmpty
      · rw [if_pos h2, if_pos h2]
        rfl
      · rw [if_neg h2, if_neg h2]
        simp

theorem foldl_paraStepA_proj (target overlap : Nat) :
    ∀ (paras : List (List Char))
    (st : List (List Char × List Char) × List Char × List Char),
    paras.foldl (paraStep target overlap) (projS st)
      = projS (paras.foldl (paraStepA target overlap) st) := by
  intro paras
  induction paras with
  | nil => intro st; rfl
  | cons para paras ih =>
    intro st
    rw [List.foldl_cons, List.foldl_cons, paraStepA_proj, ih]

/-- The plain splitter is the stripped projection of the annotated one, with
the final empty-after-trimming filter. -/
theorem smart_split_content_eq_annotated (content : List Char) (target overlap : Nat) :
    smart_split_content content target overlap
      = ((smart_split_annotated content target overlap).map
          (fun p => strip (p.1 ++ p.2))).filter (fun c => !(strip c).isEmpty) := by
  unfold smart_split_content smart_split_annotated
  have hfold := foldl_paraStepA_proj target overlap (splitParas content) ([], [], [])
  rw [show (([], []) : List (List Char) × List Char) = projS ([], [], []) from rfl,
    hfold]
  set stA := (splitParas content).foldl (paraStepA target overlap) ([], [], [])
    with hstA
  unfold projS
  dsimp only
  congr 1
  by_cases h2 : (stA.2.1 ++ stA.2.2).isEmpty
  · rw [if_pos h2, if_pos h2]
  · rw [if_neg h2, if_neg h2]
    simp

/-- Erasing whitespace from a suffix of an all-whitespace list yields nothing. -/
theorem eraseWs_drop (l : List Char) (k : Nat) (h : eraseWs l = []) :
    eraseWs (l.drop k) = [] := by
  have hs : (l.drop k).Sublist l := List.drop_sublist k l
  have hf := hs.filter (fun c => !isWs c)
  rw [eraseWs] at h ⊢
  rw [h] at hf
  exact List.sublist_nil.mp hf

/-- Every sentence fragment of an all-whitespace list is all whitespace. -/
theorem splitSentences_eraseWs_nil {x : List Char} (h : eraseWs x = [])
    {f : List Char} (hf : f ∈ splitSentences x) : eraseWs f = [] := by
  have hfl := splitSentences_eraseWs x
  rw [h] at hfl
  exact List.flatten_eq_nil_iff.mp hfl (eraseWs f) (List.mem_map_of_mem eraseWs hf)

/-- The paragraph-loop overlap reseed of an all-whitespace accumulator is all
whitespace. -/
theorem reseed_eraseWs_nil (overlap : Nat) {cur : List Char}
    (h : eraseWs cur = []) :
    eraseWs ((splitSentences (lastChars overlap cur)).getLastD
      (lastChars overlap cur)) = [] := by
  have hlast : eraseWs (lastChars overlap cur) = [] := eraseWs_drop cur _ h
  rcases getLastD_mem_or (splitSentences (lastChars overlap cur))
      (lastChars overlap cur) with hm | he
  · exact splitSentences_eraseWs_nil hlast hm
  · rw [he]
    exact hlast

/-- The non-whitespace text accounted for by an annotated splitter state: the
emitted bodies in order, followed by the current accumulator's body.  Seeds are
excluded — they duplicate text already counted in an earlier body. -/
def eraSt (st : List (List Char × List Char) × List Char × List Char) :
    List Char :=
  (st.1.map (fun p => eraseWs p.2)).flatten ++ eraseWs st.2.2

/-- One inner-loop step adds exactly the sentence's non-whitespace text. -/
theorem sentenceStepA_eraSt (target overlap : Nat)
    (st : List (List Char × List Char) × List Char × List Char) (s : List Char) :
    eraSt (sentenceStepA target overlap st s) = eraSt st ++ eraseWs s := by
  obtain ⟨done, seed, rest⟩ := st
  unfold sentenceStepA
  dsimp only
  by_cases h1 : ((seed ++ rest) ++ ' ' :: s).length ≤ target
  · rw [if_pos h1]
    by_cases h2 : (seed ++ rest).isEmpty
    · rw [if_pos h2]
      have hsr := List.isEmpty_iff.mp h2
      rcases List.append_eq_nil.mp hsr with ⟨hs, hr⟩
      subst hr
      unfold eraSt
      simp [eraseWs]
    · rw [if_neg h2]
      unfold eraSt
      dsimp only
      rw [eraseWs_append, eraseWs_cons_ws ' ' (by decide)]
      simp [List.append_assoc]
  · rw [if_neg h1]
    by_cases h2 : (seed ++ rest).isEmpty
    · rw [if_pos h2]
      have hsr := List.isEmpty_iff.mp h2
      rcases List.append_eq_nil.mp hsr with ⟨hs, hr⟩
      subst hr
      unfold eraSt
      simp [eraseWs]
    · rw [if_neg h2]
      by_cases h3 : 0 < overlap
      · rw [if_pos h3, if_pos h3]
        unfold eraSt
        dsimp only
        rw [eraseWs_cons_ws ' ' (by decide)]
        simp [List.append_assoc]
      · rw [if_neg h3, if_neg h3]
        unfold eraSt
        dsimp only
        simp [List.append_assoc]

theorem foldl_sentenceStepA_eraSt (target overlap : Nat) :
    ∀ (sents : List (List Char))
    (st : List (List Char × List Char) × List Char × List Char),
    eraSt (sents.foldl (sentenceStepA target overlap) st)
      = eraSt st ++ (sents.map eraseWs).flatten := by
  intro sents
  induction sents with
  | nil => intro st; simp
  | cons s sents ih =>
    intro st
    rw [List.foldl_cons, ih, sentenceStepA_eraSt, List.map_cons,
      List.flatten_cons, List.append_assoc]

/-- One outer-loop step adds exactly the paragraph's non-whitespace text. -/
theorem paraStepA_eraSt (target overlap : Nat)
    (st : List (List Char × List Char) × List Char × List Char)
    (para : List Char) :
    eraSt (paraStepA target overlap st para) = eraSt st ++ eraseWs para := by
  obtain ⟨done, seed, rest⟩ := st
  unfold paraStepA
  dsimp only
  by_cases h1 : (if (seed ++ rest).isEmpty then para
      else (seed ++ rest) ++ '\n' :: '\n' :: para).length ≤ target
  · rw [if_pos h1]
    by_cases h2 : (seed ++ rest).isEmpty
    · rw [if_pos h2]
      have hsr := List.isEmpty_iff.mp h2
      rcases List.append_eq_nil.mp hsr with ⟨hs, hr⟩
      subst hr
      unfold eraSt
      simp [eraseWs]
    · rw [if_neg h2]
      unfold eraSt
      dsimp only
      rw [eraseWs_append, eraseWs_cons_ws '\n' (by decide),
        eraseWs_cons_ws '\n' (by decide)]
      simp [List.append_assoc]
  · rw [if_neg h1]
    by_cases h5 : target < para.length
    · rw [if_pos h5]
      rw [foldl_sentenceStepA_eraSt, splitSentences_eraseWs]
      congr 1
      by_cases h2 : (seed ++ rest).isEmpty
      · rw [if_pos h2]
        have hsr := List.isEmpty_iff.mp h2
        rcases List.append_eq_nil.mp hsr with ⟨hs, hr⟩
        subst hr
        unfold eraSt
        simp [eraseWs]
      · rw [if_neg h2]
        unfold eraSt
        simp [eraseWs]
    · rw [if_neg h5]
      by_cases h2 : (seed ++ rest).isEmpty
      · rw [if_pos h2]
        have hsr := List.isEmpty_iff.mp h2
        rcases List.append_eq_nil.mp hsr with ⟨hs, hr⟩
        subst hr
        unfold eraSt
        simp [eraseWs]
      · rw [if_neg h2]
        unfold eraSt
        simp [eraseWs, List.append_assoc]

theorem foldl_paraStepA_eraSt (target overlap : Nat) :
    ∀ (paras : List (List Char))
    (st : List (List Char × List Char) × List Char × List Char),
    eraSt (paras.foldl (paraStepA target overlap) st)
      = eraSt st ++ (paras.map eraseWs).flatten := by
  intro paras
  induction paras with
  | nil => intro st; simp
  | cons para paras ih =>
    intro st
    rw [List.foldl_cons, ih, paraStepA_eraSt, List.map_cons,
      List.flatten_cons, List.append_assoc]

/-- Concatenating the bodies of the annotated segments reproduces all the
non-whitespace text of the input, in order. -/
theorem smart_split_annotated_eraseWs (content : List Char) (target overlap : Nat) :
    (((smart_split_annotated content target overlap).map
      (fun p => eraseWs p.2)).flatten) = eraseWs content := by
  unfold smart_split_annotated
  have hfold := foldl_paraStepA_eraSt target overlap (splitParas content) ([], [], [])
  have hinit : eraSt ([], [], []) = [] := rfl
  rw [hinit, List.nil_append] at hfold
  set st := (splitParas content).foldl (paraStepA target overlap) ([], [], [])
    with hst
  have hcontent : eraSt st = eraseWs content := by
    rw [hfold, splitParas_eraseWs]
  by_cases h2 : (st.2.1 ++ st.2.2).isEmpty
  · rw [if_pos h2]
    have hsr := List.isEmpty_iff.mp h2
    rcases List.append_eq_nil.mp hsr with ⟨hs, hr⟩
    rw [← hcontent]
    unfold eraSt
    rw [hr]
    simp [eraseWs]
  · rw [if_neg h2]
    rw [← hcontent]
    unfold eraSt
    simp

/-- Every pair of the list is whitespace-only (its stripped text erases to
nothing). -/
def allWsPairs (l : List (List Char × List Char)) : Prop :=
  ∀ p ∈ l, eraseWs (p.1 ++ p.2) = []

/-- Seed discipline along the emitted segments: the first segment's seed holds
no non-whitespace text, and as long as the segments seen so far are
whitespace-only the next seed (carried out of them) is whitespace-only too. -/
def goodSeeds : List (List Char × List Char) → Prop
  | [] => True
  | p :: l => eraseWs p.1 = [] ∧ (eraseWs (p.1 ++ p.2) = [] → goodSeeds l)

theorem goodSeeds_append (l : List (List Char × List Char))
    (q : List Char × List Char) (hl : goodSeeds l)
    (hq : allWsPairs l → eraseWs q.1 = []) : goodSeeds (l ++ [q]) := by
  induction l with
  | nil =>
    refine ⟨hq ?_, fun _ => trivial⟩
    intro p hp
    exact absurd hp (List.not_mem_nil p)
  | cons p l ih =>
    obtain ⟨hp1, hrest⟩ := hl
    refine ⟨hp1, fun hws => ?_⟩
    refine ih (hrest hws) fun hall => ?_
    refine hq fun r hr => ?_
    rcases List.mem_cons.mp hr with h | h
    · rw [h]
      exact hws
    · exact hall r h

/-- Invariant of the annotated splitter state: all seeds (emitted and current)
are at most one overlap long, the emitted seeds satisfy the seed discipline,
and the current seed is whitespace-only whenever every emitted segment is. -/
def annInv (overlap : Nat)
    (st : List (List Char × List Char) × List Char × List Char) : Prop :=
  (∀ p ∈ st.1, p.1.length ≤ overlap) ∧ st.2.1.length ≤ overlap ∧
  goodSeeds st.1 ∧ (allWsPairs st.1 → eraseWs st.2.1 = [])

theorem sentenceStepA_annInv (target overlap : Nat)
    (st : List (List Char × List Char) × List Char × List Char) (s : List Char)
    (h : annInv overlap st) :
    annInv overlap (sentenceStepA target overlap st s) := by
  obtain ⟨done, seed, rest⟩ := st
  obtain ⟨hlen, hslen, hgood, hws⟩ := h
  unfold sentenceStepA
  dsimp only
  by_cases h1 : ((seed ++ rest) ++ ' ' :: s).length ≤ target
  · rw [if_pos h1]
    by_cases h2 : (seed ++ rest).isEmpty
    · rw [if_pos h2]
      exact ⟨hlen, Nat.zero_le _, hgood, fun _ => rfl⟩
    · rw [if_neg h2]
      exact ⟨hlen, hslen, hgood, hws⟩
  · rw [if_neg h1]
    by_cases h2 : (seed ++ rest).isEmpty
    · rw [if_pos h2]
      refine ⟨?_, Nat.zero_le _, ?_, fun _ => rfl⟩
      · intro p hp
        rcases List.mem_append.mp hp with hm | hm
        · exact hlen p hm
        · rw [List.mem_singleton.mp hm]
          exact Nat.zero_le _
      · exact goodSeeds_append done _ hgood fun _ => rfl
    · rw [if_neg h2]
      have hpush : ∀ p ∈ done ++ [(seed, rest)], p.1.length ≤ overlap := by
        intro p hp
        rcases List.mem_append.mp hp with hm | hm
        · exact hlen p hm
        · rw [List.mem_singleton.mp hm]
          exact hslen
      have hgood2 : goodSeeds (done ++ [(seed, rest)]) :=
        goodSeeds_append done _ hgood hws
      have hq : allWsPairs (done ++ [(seed, rest)]) →
          eraseWs (seed ++ rest) = [] := by
        intro hall
        exact hall (seed, rest) (List.mem_append_right done (List.mem_singleton.mpr rfl))
      by_cases h3 : 0 < overlap
      · rw [if_pos h3]
        by_cases h4 : overlap < (seed ++ rest).length
        · rw [if_pos h4]
          refine ⟨hpush, lastChars_length_le overlap _, hgood2, fun hall => ?_⟩
          exact eraseWs_drop _ _ (hq hall)
        · rw [if_neg h4]
          refine ⟨hpush, Nat.le_of_not_lt h4, hgood2, fun hall => hq hall⟩
      · rw [if_neg h3]
        exact ⟨hpush, Nat.zero_le _, hgood2, fun _ => rfl⟩

theorem foldl_sentenceStepA_annInv (target overlap : Nat) :
    ∀ (sents : List (List Char))
    (st : List (List Char × List Char) × List Char × List Char),
    annInv overlap st →
    annInv overlap (sents.foldl (sentenceStepA target overlap) st) := by
  intro sents
  induction sents with
  | nil => intro st h; exact h
  | cons s sents ih =>
    intro st h
    rw [List.foldl_cons]
    exact ih _ (sentenceStepA_annInv target overlap st s h)

theorem paraStepA_annInv (target overlap : Nat)
    (st : List (List Char × List Char) × List Char × List Char)
    (para : List Char) (h : annInv overlap st) :
    annInv overlap (paraStepA target overlap st para) := by
  obtain ⟨done, seed, rest⟩ := st
  obtain ⟨hlen, hslen, hgood, hws⟩ := h
  unfold paraStepA
  dsimp only
  by_cases h1 : (if (seed ++ rest).isEmpty then para
      else (seed ++ rest) ++ '\n' :: '\n' :: para).length ≤ target
  · rw [if_pos h1]
    by_cases h2 : (seed ++ rest).isEmpty
    · rw [if_pos h2]
      exact ⟨hlen, Nat.zero_le _, hgood, fun _ => rfl⟩
    · rw [if_neg h2]
      exact ⟨hlen, hslen, hgood, hws⟩
  · rw [if_neg h1]
    have hbase : annInv overlap
        (if (seed ++ rest).isEmpty then done else done ++ [(seed, rest)],
         if (seed ++ rest).isEmpty then []
         else if (0 < overlap && overlap < (seed ++ rest).length) = true then
           (splitSentences (lastChars overlap (seed ++ rest))).getLastD
             (lastChars overlap (seed ++ rest))
         else [], []) := by
      by_cases h2 : (seed ++ rest).isEmpty
      · rw [if_pos h2, if_pos h2]
        exact ⟨hlen, Nat.zero_le _, hgood, fun _ => rfl⟩
      · rw [if_neg h2, if_neg h2]
        have hpush : ∀ p ∈ done ++ [(seed, rest)], p.1.length ≤ overlap := by
          intro p hp
          rcases List.mem_append.mp hp with hm | hm
          · exact hlen p hm
          · rw [List.mem_singleton.mp hm]
            exact hslen
        have hgood2 : goodSeeds (done ++ [(seed, rest)]) :=
          goodSeeds_append done _ hgood hws
        have hq : allWsPairs (done ++ [(seed, rest)]) →
            eraseWs (seed ++ rest) = [] := by
          intro hall
          exact hall (seed, rest)
            (List.mem_append_right done (List.mem_singleton.mpr rfl))
        by_cases h3 : (0 < overlap && overlap < (seed ++ rest).length) = true
        · rw [if_pos h3]
          have h3' := (Bool.and_eq_true _ _).mp h3
          have hov : overlap < (seed ++ rest).length :=
            of_decide_eq_true h3'.2
          refine ⟨hpush, reseed_length_le overlap _ hov, hgood2, fun hall => ?_⟩
          exact reseed_eraseWs_nil overlap (hq hall)
        · rw [if_neg h3]
          exact ⟨hpush, Nat.zero_le _, hgood2, fun _ => rfl⟩
    by_cases h5 : target < para.length
    · rw [if_pos h5]
      exact foldl_sentenceStepA_annInv target overlap (splitSentences para) _ hbase
    · rw [if_neg h5]
      obtain ⟨hb1, hb2, hb3, hb4⟩ := hbase
      exact ⟨hb1, Nat.zero_le _, hb3, fun _ => rfl⟩

theorem foldl_paraStepA_annInv (target overlap : Nat) :
    ∀ (paras : List (List Char))
    (st : List (List Char × List Char) × List Char × List Char),
    annInv overlap st →
    annInv overlap (paras.foldl (paraStepA target overlap) st) := by
  intro paras
  induction paras with
  | nil => intro st h; exact h
  | cons para paras ih =>
    intro st h
    rw [List.foldl_cons]
    exact ih _ (paraStepA_annInv target overlap st para h)

/-- The annotated segment list keeps every seed within one overlap length and
satisfies the seed discipline. -/
theorem smart_split_annotated_inv (content : List Char) (target overlap : Nat) :
    (∀ p ∈ smart_split_annotated content target overlap, p.1.length ≤ overlap)
    ∧ goodSeeds (smart_split_annotated content target overlap) := by
  unfold smart_split_annotated
  have hinv := foldl_paraStepA_annInv target overlap (splitParas content)
    ([], [], []) ⟨fun p hp => absurd hp (List.not_mem_nil p), Nat.zero_le _,
      trivial, fun _ => rfl⟩
  set st := (splitParas content).foldl (paraStepA target overlap) ([], [], [])
    with hst
  obtain ⟨hlen, hslen, hgood, hws⟩ := hinv
  by_cases h2 : (st.2.1 ++ st.2.2).isEmpty
  · rw [if_pos h2]
    exact ⟨hlen, hgood⟩
  · rw [if_neg h2]
    constructor
    · intro p hp
      rcases List.mem_append.mp hp with hm | hm
      · exact hlen p hm
      · rw [List.mem_singleton.mp hm]
        exact hslen
    · exact goodSeeds_append st.1 _ hgood hws

/-- Under the seed discipline, the first segment that survives the
empty-after-trimming filter has a whitespace-only seed: any segments dropped
before it were whitespace-only, so the seed carried out of them is too. -/
theorem goodSeeds_head_filter (l : List (List Char × List Char))
    (hg : goodSeeds l) :
    ∀ q ∈ ((l.filter fun p => !(strip (strip (p.1 ++ p.2))).isEmpty).head?),
      eraseWs q.1 = [] := by
  induction l with
  | nil =>
    intro q hq
    simp at hq
  | cons p l ih =>
    obtain ⟨hp1, hrest⟩ := hg
    rw [List.filter_cons]
    by_cases hc : (!(strip (strip (p.1 ++ p.2))).isEmpty) = true
    · rw [if_pos hc]
      intro q hq
      rw [List.head?_cons, Option.mem_some_iff] at hq
      rw [← hq]
      exact hp1
    · rw [if_neg hc]
      have hdrop : (strip (strip (p.1 ++ p.2))).isEmpty = true := by
        simpa using hc
      have h0 := List.isEmpty_iff.mp hdrop
      have h1 := eraseWs_eq_nil_of_strip_eq_nil h0
      rw [eraseWs_strip] at h1
      exact ih (hrest h1)

/-- Dropping the whitespace-only segments does not change the concatenated
non-whitespace bodies. -/
theorem flatten_map_filter_bodies (l : List (List Char × List Char)) :
    (((l.filter fun p => !(strip (strip (p.1 ++ p.2))).isEmpty).map
        fun p => eraseWs p.2).flatten)
      = ((l.map fun p => eraseWs p.2).flatten) := by
  induction l with
  | nil => rfl
  | cons p l ih =>
    rw [List.filter_cons]
    by_cases hc : (!(strip (strip (p.1 ++ p.2))).isEmpty) = true
    · rw [if_pos hc]
      simp only [List.map_cons, List.flatten_cons, ih]
    · rw [if_neg hc]
      have hdrop : (strip (strip (p.1 ++ p.2))).isEmpty = true := by
        simpa using hc
      have h0 := List.isEmpty_iff.mp hdrop
      have h1 := eraseWs_eq_nil_of_strip_eq_nil h0
      rw [eraseWs_strip, eraseWs_append] at h1
      rcases List.append_eq_nil.mp h1 with ⟨h2, h3⟩
      simp only [List.map_cons, List.flatten_cons, ih, h3, List.nil_append]

/-- The parent contents of a section, as a list, are its segment list. -/
theorem parents_map_content (cfg : Config) (name content : List Char) :
    (create_parent_chunks cfg name content).map (fun c => c.content)
      = parentSegs cfg content := by
  rw [create_parent_chunks_eq, List.map_map]
  rw [show ((fun c : Chunk => c.content) ∘
      fun p : Nat × List Char => mkParent name p.1 p.2)
    = Prod.snd from rfl]
  exact List.enum_map_snd _

/-- C9: For any configuration and any section, the section's parent chunk
contents decompose, in index order, into an overlap seed plus a fresh body:
each parent's content is its seed followed by its body up to whitespace, every
seed is at most one overlapSize long, the first parent's seed holds no
non-whitespace text, and the bodies concatenate to the section's original
content up to whitespace normalization — splitting loses and reorders no
non-whitespace text. -/
theorem c9_parent_reconstruction (cfg : Config) (name content : List Char) :
    ∃ anns : List (List Char × List Char),
      ((create_parent_chunks cfg name content).map fun c => eraseWs c.content)
          = anns.map (fun p => eraseWs (p.1 ++ p.2))
      ∧ (∀ p ∈ anns, p.1.length ≤ cfg.overlap_size)
      ∧ (∀ q ∈ anns.head?, eraseWs q.1 = [])
      ∧ (anns.map fun p => eraseWs p.2).flatten = eraseWs content := by
  have hmap : ((create_parent_chunks cfg name content).map fun c => eraseWs c.content)
      = (parentSegs cfg content).map eraseWs := by
    rw [show (fun c : Chunk => eraseWs c.content)
        = eraseWs ∘ (fun c : Chunk => c.content) from rfl,
      ← List.map_map, parents_map_content]
  unfold parentSegs at hmap
  by_cases h : content.length ≤ cfg.parent_chunk_size
  · rw [if_pos h] at hmap
    refine ⟨[([], content)], ?_, ?_, ?_, ?_⟩
    · rw [hmap]
      simp
    · intro p hp
      rw [List.mem_singleton.mp hp]
      exact Nat.zero_le _
    · intro q hq
      rw [List.head?_cons, Option.mem_some_iff] at hq
      rw [← hq]
      rfl
    · simp
  · rw [if_neg h] at hmap
    rw [smart_split_content_eq_annotated] at hmap
    rw [List.filter_map] at hmap
    refine ⟨(smart_split_annotated content cfg.parent_chunk_size
        cfg.overlap_size).filter
        (fun p => !(strip (strip (p.1 ++ p.2))).isEmpty), ?_, ?_, ?_, ?_⟩
    · rw [hmap, List.map_map]
      simp only [Function.comp_def]
      refine List.map_congr_left fun p _ => ?_
      exact eraseWs_strip _
    · intro p hp
      exact (smart_split_annotated_inv content cfg.parent_chunk_size
        cfg.overlap_size).1 p (List.mem_of_mem_filter hp)
    · exact goodSeeds_head_filter _
        (smart_split_annotated_inv content cfg.parent_chunk_size
          cfg.overlap_size).2
    · rw [flatten_map_filter_bodies]
      exact smart_split_annotated_eraseWs content cfg.parent_chunk_size
        cfg.overlap_size
